import Mathlib

/-!
# CodeX dashboard: `parseCsv`, `groupAverage` and the overall average

A shallow embedding of `src/app.js`.

* JavaScript strings are lists of characters (`Str`); no operation of the
  program looks at string lengths or indices, so code units and code points
  need not be told apart.
* JavaScript numbers are `JsNum`: a rational number, `NaN`, `+Infinity` or
  `-Infinity`.  The arithmetic takes the rounding of its finite results as a
  parameter.  The program runs with `roundBinary64`, the rounding of IEEE-754
  binary64 arithmetic (to nearest, ties to even, infinite on overflow); with
  `exactArithmetic` the same program computes without rounding.  The sign of
  zero is not modelled.
* A thrown exception is the `error` case of `Except`.
-/

namespace CodeX

/-! ## Strings -/

/-- A JavaScript string. -/
abbrev Str := List Char

/-- ECMAScript `WhiteSpace` and `LineTerminator` code points, the characters
removed by `String.prototype.trim` and skipped by `Number` around a literal. -/
def isJsWhitespace (c : Char) : Bool :=
  let n := c.toNat
  n == 0x09 || n == 0x0A || n == 0x0B || n == 0x0C || n == 0x0D || n == 0x20 ||
  n == 0xA0 || n == 0x1680 || (0x2000 ≤ n && n ≤ 0x200A) || n == 0x2028 ||
  n == 0x2029 || n == 0x202F || n == 0x205F || n == 0x3000 || n == 0xFEFF

/-- `String.prototype.trimStart`. -/
def trimStart (s : Str) : Str := s.dropWhile isJsWhitespace

/-- `String.prototype.trimEnd`. -/
def trimEnd (s : Str) : Str := (s.reverse.dropWhile isJsWhitespace).reverse

/-- `String.prototype.trim`. -/
def trim (s : Str) : Str := trimEnd (trimStart s)

/-- Lower-casing of one character: the ASCII capitals, and the Kelvin sign
U+212A, the only non-ASCII code point whose lower case is an ASCII letter.
Other non-ASCII case mappings are left as they are; none of them can produce
or destroy one of the ASCII column names. -/
def lowerChar (c : Char) : Char :=
  if c.toNat = 0x212A then 'k' else c.toLower

/-- `String.prototype.toLowerCase`. -/
def toLowerCase (s : Str) : Str := s.map lowerChar

/-- Puts a character in front of the first piece of a split. -/
def consHead (c : Char) : List Str → List Str
  | [] => [[c]]
  | l :: ls => (c :: l) :: ls

/-- `s.split(/\r?\n/)`: the pieces of `s` between line breaks, a line break
being a line feed optionally preceded by one carriage return. -/
def splitLines : Str → List Str
  | [] => [[]]
  | [c] => if c = '\n' then [[], []] else [[c]]
  | c :: d :: rest =>
    if c = '\r' ∧ d = '\n' then [] :: splitLines rest
    else if c = '\n' then [] :: splitLines (d :: rest)
    else consHead c (splitLines (d :: rest))

/-- `s.split(',')`. -/
def splitComma : Str → List Str
  | [] => [[]]
  | c :: rest => if c = ',' then [] :: splitComma rest else consHead c (splitComma rest)

/-- `parts.join(', ')`. -/
def joinComma : List Str → Str
  | [] => []
  | [s] => s
  | s :: t :: rest => s ++ ", ".toList ++ joinComma (t :: rest)

/-! ## Numbers -/

/-- A JavaScript number. -/
inductive JsNum where
  | finite (q : ℚ)
  | nan
  | posInf
  | negInf
  deriving DecidableEq, Repr

namespace JsNum

/-- `Number.isFinite`. -/
def isFinite : JsNum → Bool
  | finite _ => true
  | _ => false

/-- The `+` of two numbers, the finite sum rounded by `rnd`. -/
def add (rnd : ℚ → JsNum) : JsNum → JsNum → JsNum
  | finite a, finite b => rnd (a + b)
  | nan, _ => nan
  | _, nan => nan
  | posInf, negInf => nan
  | negInf, posInf => nan
  | posInf, _ => posInf
  | _, posInf => posInf
  | negInf, _ => negInf
  | _, negInf => negInf

/-- Negation. -/
def neg : JsNum → JsNum
  | finite a => finite (-a)
  | nan => nan
  | posInf => negInf
  | negInf => posInf

/-- The `-` of two numbers, the finite difference rounded by `rnd`. -/
def sub (rnd : ℚ → JsNum) (a b : JsNum) : JsNum := add rnd a (neg b)

/-- The `/` of a number by an array length or a count, which is a
non-negative integer, the finite quotient rounded by `rnd`: `0 / 0` is `NaN`
and a non-zero number over `0` is an infinity of its sign. -/
def divNat (rnd : ℚ → JsNum) : JsNum → Nat → JsNum
  | finite a, n =>
    if n = 0 then (if a = 0 then nan else if 0 < a then posInf else negInf)
    else rnd (a / (n : ℚ))
  | nan, _ => nan
  | posInf, _ => posInf
  | negInf, _ => negInf

/-- The test `x > 0` (false for `NaN`). -/
def isPos : JsNum → Bool
  | finite a => decide (0 < a)
  | posInf => true
  | _ => false

/-- The comparison `a <= b` (false when either is `NaN`). -/
def le : JsNum → JsNum → Bool
  | finite a, finite b => decide (a ≤ b)
  | nan, _ => false
  | _, nan => false
  | negInf, _ => true
  | _, posInf => true
  | _, _ => false

end JsNum

/-- Arithmetic without rounding: every finite result is kept as it is. -/
def exactArithmetic : ℚ → JsNum := JsNum.finite

/-- The least magnitude that rounds to an infinity when converted to a
binary64 value: the largest finite value plus half a unit in its last place,
`2 ^ 1024 - 2 ^ 970`, written with small exponents (`256 * 4 = 1024` and
`194 * 5 = 970`). -/
def overflowThreshold : Nat := (2 ^ 256) ^ 4 - (2 ^ 194) ^ 5

/-- The number of smallest binary64 steps in `1`: every finite binary64 value
is a whole multiple of `2 ^ (-1074)`, and this is `2 ^ 1074`, written with
small exponents (`179 * 6 = 1074`). -/
def unitsPerOne : Nat := (2 ^ 179) ^ 6

/-- The exponents tried, largest first, to find the leading bit of a number
below `2 ^ 4096`. -/
def bitSteps : List Nat := [2048, 1024, 512, 256, 128, 64, 32, 16, 8, 4, 2, 1]

/-- The search for the leading bit: `acc` counts the bits already shifted
out. -/
def ilog2Aux : List Nat → Nat → Nat → Nat
  | [], _, acc => acc
  | b :: bs, n, acc =>
    if n >>> b = 0 then ilog2Aux bs n acc else ilog2Aux bs (n >>> b) (acc + b)

/-- The position of the leading bit of `n`, the integer part of its binary
logarithm (`0` for `0`). -/
def ilog2 (n : Nat) : Nat := ilog2Aux bitSteps n 0

/-- The binary64 value nearest to `num / den` (both natural, `den` positive,
the quotient below `overflowThreshold`), as a number of steps of `2 ^ (-1074)`.
The value has at most 53 significant bits: above `2 ^ 53` steps the last
`shift` bits are rounded away, to nearest and to even on a tie. -/
def roundUnits (num den : Nat) : Nat :=
  let s := num * unitsPerOne
  let shift := ilog2 (s / den) - 52
  let d := den <<< shift
  let n := s / d
  let r := s % d
  let up : Bool := if 2 * r < d then false else if d < 2 * r then true else n % 2 == 1
  (if up then n + 1 else n) <<< shift

/-- The number whose mathematical value is `num / den` (with `den` positive),
negated when `negative` is set: an infinity when the magnitude rounds out of the
binary64 range, the nearest binary64 value otherwise. -/
def ofMagnitude (negative : Bool) (num den : Nat) : JsNum :=
  if overflowThreshold * den ≤ num then (if negative then .negInf else .posInf)
  else if negative then .finite (-(mkRat (roundUnits num den) unitsPerOne))
  else .finite (mkRat (roundUnits num den) unitsPerOne)

/-- The rounding of binary64 arithmetic: the result of an operation whose
mathematical value is `q`. -/
def roundBinary64 (q : ℚ) : JsNum := ofMagnitude (decide (q < 0)) q.num.natAbs q.den

/-- A decimal digit. -/
def isDecDigit (c : Char) : Bool := 48 ≤ c.toNat && c.toNat ≤ 57

/-- The value of a digit character in the given base, when it is one. -/
def digitIn (base : Nat) (c : Char) : Option Nat :=
  let n := c.toNat
  let v : Option Nat :=
    if 48 ≤ n ∧ n ≤ 57 then some (n - 48)
    else if 97 ≤ n ∧ n ≤ 102 then some (n - 87)
    else if 65 ≤ n ∧ n ≤ 70 then some (n - 55)
    else none
  v.bind (fun d => if d < base then some d else none)

/-- The value of a digit string in the given base; `none` when the string is
empty or holds a character that is not a digit of that base. -/
def digitsIn (base : Nat) (ds : Str) : Option Nat :=
  if ds = [] then none
  else ds.foldl (fun acc c => acc.bind (fun n => (digitIn base c).map (fun d => n * base + d)))
    (some 0)

/-- The grammar's `NonDecimalIntegerLiteral`: `0x`, `0o` or `0b` (either case)
followed by at least one digit of that base. -/
def nonDecimalLiteral : Str → Option Nat
  | z :: x :: ds =>
    if z = '0' then
      if x = 'x' ∨ x = 'X' then digitsIn 16 ds
      else if x = 'o' ∨ x = 'O' then digitsIn 8 ds
      else if x = 'b' ∨ x = 'B' then digitsIn 2 ds
      else none
    else none
  | _ => none

/-- The grammar's optional `ExponentPart`: nothing (exponent zero), or `e`/`E`,
an optional sign and at least one decimal digit. -/
def exponentPart : Str → Option Int
  | [] => some 0
  | e :: r =>
    if e = 'e' ∨ e = 'E' then
      match r with
      | [] => none
      | s :: ds =>
        if s = '+' then (digitsIn 10 ds).map (fun n => (n : Int))
        else if s = '-' then (digitsIn 10 ds).map (fun n => -(n : Int))
        else (digitsIn 10 (s :: ds)).map (fun n => (n : Int))
    else none

/-- The grammar's `StrUnsignedDecimalLiteral` with the sign already read:
`Infinity`, or digits with an optional fraction and exponent, at least one
digit before or after the point. -/
def unsignedDecimal (negative : Bool) (s : Str) : JsNum :=
  if s = "Infinity".toList then (if negative then .negInf else .posInf)
  else
    let ip := s.takeWhile isDecDigit
    let r1 := s.dropWhile isDecDigit
    let fp := match r1 with
      | c :: r => if c = '.' then r.takeWhile isDecDigit else []
      | [] => []
    let r2 := match r1 with
      | c :: r => if c = '.' then r.dropWhile isDecDigit else r1
      | [] => []
    if ip = [] ∧ fp = [] then .nan
    else
      match exponentPart r2, digitsIn 10 (ip ++ fp) with
      | some e, some m =>
        let k : Int := e - (fp.length : Int)
        if 0 ≤ k then ofMagnitude negative (m * 10 ^ k.toNat) 1
        else ofMagnitude negative m (10 ^ (-k).toNat)
      | _, _ => .nan

/-- `Number(s)` for a string `s` (the abstract operation `StringToNumber`):
surrounding white space is skipped, the empty string is `0`, a literal of the
numeric-string grammar is its value, and anything else is `NaN`. -/
def stringToNumber (s : Str) : JsNum :=
  let t := trim s
  match t with
  | [] => .finite 0
  | c :: r =>
    match nonDecimalLiteral t with
    | some n => ofMagnitude false n 1
    | none =>
      if c = '+' then unsignedDecimal false r
      else if c = '-' then unsignedDecimal true r
      else unsignedDecimal false t

/-! ## Values, objects and maps -/

/-- The JavaScript values that occur: `undefined`, strings and numbers. -/
inductive JsVal where
  | undefined
  | str (s : Str)
  | num (n : JsNum)
  deriving DecidableEq, Repr

/-- `Number(v)`. -/
def toNumber : JsVal → JsNum
  | .undefined => .nan
  | .str s => stringToNumber s
  | .num n => n

/-- Truthiness of a value, as tested by `&&`. -/
def truthy : JsVal → Bool
  | .undefined => false
  | .str s => !s.isEmpty
  | .num n => !(n = .nan || n = .finite 0)

/-- `m.get(k)` on an insertion-ordered key/value collection (a `Map`, or the
own properties of an object); `none` stands for `undefined`. -/
def mapGet {κ β : Type} [DecidableEq κ] : List (κ × β) → κ → Option β
  | [], _ => none
  | (k0, v0) :: rest, k => if k0 = k then some v0 else mapGet rest k

/-- `m.set(k, v)`: an existing key keeps its position and takes the new value,
a new key goes to the end. -/
def mapSet {κ β : Type} [DecidableEq κ] : List (κ × β) → κ → β → List (κ × β)
  | [], k, v => [(k, v)]
  | (k0, v0) :: rest, k, v =>
    if k0 = k then (k0, v) :: rest else (k0, v0) :: mapSet rest k v

/-- `Object.fromEntries(entries)`. -/
def fromEntries (entries : List (Str × JsVal)) : List (Str × JsVal) :=
  entries.foldl (fun obj e => mapSet obj e.1 e.2) []

/-- Reading the property `name` of an object built by `fromEntries`. -/
def getProp (obj : List (Str × JsVal)) (name : Str) : JsVal :=
  (mapGet obj name).getD .undefined

/-! ## `parseCsv` -/

/-- A record as built by `parseCsv`. -/
structure Row where
  state : JsVal
  year : JsNum
  indicator : JsVal
  value : JsNum
  deriving DecidableEq, Repr

/-- What `parseCsv` can throw. -/
inductive Thrown where
  /-- The `TypeError` of calling `.split` on `undefined`. -/
  | typeError
  /-- The `Error` carrying a message. -/
  | error (message : Str)
  deriving DecidableEq, Repr

/-- The array `required`. -/
def required : List Str :=
  ["state".toList, "year".toList, "indicator".toList, "value".toList]

/-- The array `lines`: `text.trim().split(/\r?\n/).filter(Boolean)`. -/
def lines (text : Str) : List Str :=
  (splitLines (trim text)).filter (fun l => !l.isEmpty)

/-- The array `headers` of a header line. -/
def headersOf (line : Str) : List Str :=
  (splitComma line).map (fun h => toLowerCase (trim h))

/-- The array `missing`. -/
def missingOf (headers : List Str) : List Str :=
  required.filter (fun name => !headers.contains name)

/-- The message of the error thrown for missing columns. -/
def missingMessage (missing : List Str) : Str :=
  "CSV missing required columns: ".toList ++ joinComma missing

/-- The array `cells` of a data line. -/
def cellsOf (line : Str) : List Str := (splitComma line).map trim

/-- The object `row` of a data line. -/
def rowObject (headers : List Str) (line : Str) : List (Str × JsVal) :=
  fromEntries (headers.enum.map (fun ih => (ih.2, JsVal.str ((cellsOf line).getD ih.1 []))))

/-- The record mapped from a data line. -/
def recordOf (headers : List Str) (line : Str) : Row :=
  let row := rowObject headers line
  { state := getProp row "state".toList
    year := toNumber (getProp row "year".toList)
    indicator := getProp row "indicator".toList
    value := toNumber (getProp row "value".toList) }

/-- The predicate of the final `filter`. -/
def keepRow (row : Row) : Bool :=
  truthy row.state && row.year.isFinite && row.value.isFinite

/-- The function `parseCsv`. -/
def parseCsv (text : Str) : Except Thrown (List Row) :=
  match lines text with
  | [] => .error .typeError
  | header :: rest =>
    let headers := headersOf header
    let missing := missingOf headers
    if missing.length ≠ 0 then .error (.error (missingMessage missing))
    else .ok ((rest.map (recordOf headers)).filter keepRow)

/-! ## `groupAverage` and the overall average -/

/-- The accumulator object `{ sum, count }`. -/
structure Acc where
  sum : JsNum
  count : Nat
  deriving DecidableEq, Repr

/-- The property read `row[key]`. -/
def Row.get (row : Row) (key : Str) : JsVal :=
  if key = "state".toList then row.state
  else if key = "year".toList then .num row.year
  else if key = "indicator".toList then row.indicator
  else if key = "value".toList then .num row.value
  else .undefined

/-- One iteration of the `forEach` of `groupAverage`. -/
def aggStep (rnd : ℚ → JsNum) (key : Str) (agg : List (JsVal × Acc)) (row : Row) :
    List (JsVal × Acc) :=
  let current := (mapGet agg (row.get key)).getD { sum := .finite 0, count := 0 }
  mapSet agg (row.get key)
    { sum := current.sum.add rnd row.value, count := current.count + 1 }

/-- The map `agg` after the `forEach`. -/
def aggregate (rnd : ℚ → JsNum) (rows : List Row) (key : Str) : List (JsVal × Acc) :=
  rows.foldl (aggStep rnd key) []

/-- The comparator `(a, b) => b[1] - a[1]`. -/
def compareAvg (rnd : ℚ → JsNum) (a b : JsVal × JsNum) : JsNum := b.2.sub rnd a.2

/-- The order in which `sort` leaves two entries alone: `a` stays before `b`
unless the comparator is positive. -/
def staysBefore (rnd : ℚ → JsNum) (a b : JsVal × JsNum) : Prop :=
  (compareAvg rnd a b).isPos = false

instance (rnd : ℚ → JsNum) : DecidableRel (staysBefore rnd) :=
  fun a b => inferInstanceAs (Decidable ((compareAvg rnd a b).isPos = false))

/-- `Array.prototype.sort` with the comparator `compareAvg`.  The sort is
stable, so for a consistent comparator (as here when no average is `NaN`)
its result is the one stable sorted arrangement; it is computed here by
insertion, an entry moving behind another only when the comparator is
positive. -/
def sortByAvg (rnd : ℚ → JsNum) (pairs : List (JsVal × JsNum)) : List (JsVal × JsNum) :=
  pairs.insertionSort (staysBefore rnd)

/-- The body of `groupAverage`, its arithmetic rounded by `rnd`. -/
def groupAverageWith (rnd : ℚ → JsNum) (rows : List Row) (key : Str) :
    List (JsVal × JsNum) :=
  sortByAvg rnd ((aggregate rnd rows key).map (fun e => (e.1, e.2.sum.divNat rnd e.2.count)))

/-- The function `groupAverage`, in binary64 arithmetic. -/
def groupAverage (rows : List Row) (key : Str) : List (JsVal × JsNum) :=
  groupAverageWith roundBinary64 rows key

/-- The constant `avg` of `renderDashboard`,
`rows.reduce((sum, row) => sum + row.value, 0) / rows.length`, its arithmetic
rounded by `rnd`. -/
def renderDashboardAvgWith (rnd : ℚ → JsNum) (rows : List Row) : JsNum :=
  (rows.foldl (fun (sum : JsNum) row => sum.add rnd row.value) (JsNum.finite 0)).divNat rnd
    rows.length

/-- The constant `avg` of `renderDashboard`, in binary64 arithmetic. -/
def renderDashboardAvg (rows : List Row) : JsNum :=
  renderDashboardAvgWith roundBinary64 rows

/-! ## Auxiliary notions used to state the properties -/

/-- The value stored last under a key in a list of entries. -/
def lastVal {κ β : Type} [DecidableEq κ] : List (κ × β) → κ → Option β
  | [], _ => none
  | e :: es, k =>
    match lastVal es k with
    | some v => some v
    | none => if e.1 = k then some e.2 else none

/-- The position of the last header cell equal to `name`, the column whose
cell an object built from the headers keeps for that name. -/
def lastIndexOf (name : Str) : List Str → Option Nat
  | [] => none
  | h :: hs =>
    match lastIndexOf name hs with
    | some i => some (i + 1)
    | none => if h = name then some 0 else none

/-- The trimmed cell of a data line at a column, the empty string when the
line has no cell there. -/
def cellAt (line : Str) (i : Nat) : Str := (cellsOf line).getD i []

/-- The trimmed cells of a data line at the columns of `state`, `year`,
`indicator` and `value`, in that order. -/
def cellsAt (iS iY iI iV : Nat) (line : Str) : Str × Str × Str × Str :=
  (cellAt line iS, cellAt line iY, cellAt line iI, cellAt line iV)

/-- A data line is valid when its state cell is not empty and its year and
value cells both convert to finite numbers. -/
def validCells (c : Str × Str × Str × Str) : Bool :=
  !c.1.isEmpty && (stringToNumber c.2.1).isFinite && (stringToNumber c.2.2.2).isFinite

/-- The record made of the four cells of a data line, year and value
converted to numbers. -/
def recordOfCells (c : Str × Str × Str × Str) : Row :=
  { state := .str c.1
    year := stringToNumber c.2.1
    indicator := .str c.2.2.1
    value := stringToNumber c.2.2.2 }

/-- An input lacking the `state` column. -/
def csvMissingState : Str := "year,indicator,value\n2020,X,10".toList

/-- An input whose only data line has a blank state. -/
def csvBlankState : Str := "state,year,indicator,value\n,2020,X,10".toList

/-- An input whose only data line lacks its value cell. -/
def csvMissingValue : Str := "state,year,indicator,value\nA,2020,X".toList

/-- An input whose only data line has a fractional year. -/
def csvFractionalYear : Str := "state,year,indicator,value\nA,2020.5,X,10".toList

/-- An input with mixed-case, padded and reordered headers and an extra
column. -/
def csvReordered : Str := " Value ,extra, STATE,Indicator,year\r\n10,zz, A ,X,2020\n\n7,,,X,2021".toList

/-- The keys of a list in the order of their first occurrence. -/
def firstKeys : List JsVal → List JsVal
  | [] => []
  | k :: ks => k :: (firstKeys ks).filter (fun x => decide (x ≠ k))

/-- The value of a record as a rational number (`0` when it is not finite). -/
def Row.valueQ (row : Row) : ℚ :=
  match row.value with
  | .finite q => q
  | _ => 0

/-- The rational number of a finite number (`0` when it is not finite). -/
def JsNum.toRat : JsNum → ℚ
  | .finite q => q
  | _ => 0

/-- The records of `rows` whose `key` is `k`, in order. -/
def groupRows (rows : List Row) (key : Str) (k : JsVal) : List Row :=
  rows.filter (fun r => decide (r.get key = k))

/-- The sum of the values of the records whose `key` is `k`. -/
def groupSum (rows : List Row) (key : Str) (k : JsVal) : ℚ :=
  ((groupRows rows key k).map Row.valueQ).sum

/-- The number of records whose `key` is `k`. -/
def groupCount (rows : List Row) (key : Str) (k : JsVal) : Nat :=
  (groupRows rows key k).length

/-- The arithmetic mean of the values of the records whose `key` is `k`: their
sum divided by their count. -/
def groupMean (rows : List Row) (key : Str) (k : JsVal) : ℚ :=
  groupSum rows key k / (groupCount rows key k : ℚ)

/-- The sum that `groupAverage` holds for the key `k` after its pass over
`rows`: the values of the records of that key, added in row order from `0`. -/
def groupRunningSum (rnd : ℚ → JsNum) (rows : List Row) (key : Str) (k : JsVal) : JsNum :=
  (groupRows rows key k).foldl (fun (sum : JsNum) r => sum.add rnd r.value) (JsNum.finite 0)

/-- The accumulator that `groupAverage` holds for the key `k` after its pass
over `rows`. -/
def groupAcc (rnd : ℚ → JsNum) (rows : List Row) (key : Str) (k : JsVal) : Acc :=
  { sum := groupRunningSum rnd rows key k, count := groupCount rows key k }

/-- The quotient that `groupAverage` pairs with the key `k`: the running sum
of its records divided by their count. -/
def groupQuotient (rnd : ℚ → JsNum) (rows : List Row) (key : Str) (k : JsVal) : JsNum :=
  (groupRunningSum rnd rows key k).divNat rnd (groupCount rows key k)

/-- The quotients of `rows` in the order in which the keys are first met. -/
def quotientsInOrder (rnd : ℚ → JsNum) (rows : List Row) (key : Str) :
    List (JsVal × JsNum) :=
  (firstKeys (rows.map (fun r => r.get key))).map (fun k => (k, groupQuotient rnd rows key k))

/-- A rounding under which the comparator of `groupAverage` tells the order of
two rounded values: no result is `NaN`, and the rounded difference of two
finite results is positive exactly when the second is the larger. -/
def SignFaithful (rnd : ℚ → JsNum) : Prop :=
  (∀ q, rnd q ≠ .nan) ∧
  ∀ a b x y, rnd a = .finite x → rnd b = .finite y →
    ((rnd (y - x)).isPos = true ↔ x < y)

/-- A number that an average can be: not `NaN`, and when finite a result of
the rounding. -/
def IsRounded (rnd : ℚ → JsNum) (v : JsNum) : Prop :=
  v ≠ .nan ∧ ∀ x, v = .finite x → ∃ q, rnd q = .finite x

/-- The descending order of averages on pairs with a rational average. -/
def avgGe (a b : JsVal × ℚ) : Prop := b.2 ≤ a.2

instance : DecidableRel avgGe :=
  fun a b => inferInstanceAs (Decidable (b.2 ≤ a.2))

instance : IsTotal (JsVal × ℚ) avgGe := ⟨fun a b => le_total b.2 a.2⟩

instance : IsTrans (JsVal × ℚ) avgGe := ⟨fun _ _ _ hab hbc => le_trans hbc hab⟩

/-- A pair with a rational average as a pair of JavaScript values. -/
def embPair (e : JsVal × ℚ) : JsVal × JsNum := (e.1, .finite e.2)

/-- The group means of `rows` in the order in which the keys are first met. -/
def meansInOrder (rows : List Row) (key : Str) : List (JsVal × ℚ) :=
  (firstKeys (rows.map (fun r => r.get key))).map (fun k => (k, groupMean rows key k))

/-- The three records of the scenario: `A/2020/10`, `A/2021/20`, `B/2020/5`. -/
def sampleRows : List Row :=
  [{ state := .str "A".toList, year := .finite 2020, indicator := .str "X".toList,
     value := .finite 10 },
   { state := .str "A".toList, year := .finite 2021, indicator := .str "X".toList,
     value := .finite 20 },
   { state := .str "B".toList, year := .finite 2020, indicator := .str "X".toList,
     value := .finite 5 }]

/-- Three records with a tie: `B/2020/10`, `A/2020/10`, `C/2020/20`. -/
def tieRows : List Row :=
  [{ state := .str "B".toList, year := .finite 2020, indicator := .str "X".toList,
     value := .finite 10 },
   { state := .str "A".toList, year := .finite 2020, indicator := .str "X".toList,
     value := .finite 10 },
   { state := .str "C".toList, year := .finite 2020, indicator := .str "X".toList,
     value := .finite 20 }]

/-- The binary64 number `2 ^ 1023`, the largest power of two in the range,
written with small exponents (`256 * 3 + 255 = 1023`). -/
def twoPow1023 : ℚ := (((2 ^ 256) ^ 3 * 2 ^ 255 : ℕ) : ℚ)

/-- Two records of one state whose values are `2 ^ 1023`: their sum is beyond
the binary64 range. -/
def overflowRows : List Row :=
  [{ state := .str "A".toList, year := .finite 2020, indicator := .str "X".toList,
     value := .finite twoPow1023 },
   { state := .str "A".toList, year := .finite 2021, indicator := .str "X".toList,
     value := .finite twoPow1023 }]

/-- Two records of one state with the binary64 values `2 ^ 53` and `1`: their
sum `2 ^ 53 + 1` is not a binary64 number. -/
def roundedRows : List Row :=
  [{ state := .str "A".toList, year := .finite 2020, indicator := .str "X".toList,
     value := .finite 9007199254740992 },
   { state := .str "A".toList, year := .finite 2021, indicator := .str "X".toList,
     value := .finite 1 }]

/-- Records of two states whose sums both overflow, and a third state: the
comparator of the two infinite averages is `NaN`. -/
def infiniteTieRows : List Row :=
  [{ state := .str "C".toList, year := .finite 2020, indicator := .str "X".toList,
     value := .finite 1 },
   { state := .str "A".toList, year := .finite 2020, indicator := .str "X".toList,
     value := .finite twoPow1023 },
   { state := .str "B".toList, year := .finite 2020, indicator := .str "X".toList,
     value := .finite twoPow1023 },
   { state := .str "A".toList, year := .finite 2021, indicator := .str "X".toList,
     value := .finite twoPow1023 },
   { state := .str "B".toList, year := .finite 2021, indicator := .str "X".toList,
     value := .finite twoPow1023 }]

/-- An input made of the header line only. -/
def csvHeaderOnly : Str := "state,year,indicator,value".toList

/-! # Properties -/

/-! ## Lemmas on insertion-ordered maps -/

theorem mapGet_mapSet {κ β : Type} [DecidableEq κ] (m : List (κ × β)) (k : κ) (v : β) (k' : κ) :
    mapGet (mapSet m k v) k' = if k = k' then some v else mapGet m k' := by
  induction m with
  | nil => simp [mapSet, mapGet]
  | cons e rest ih =>
    obtain ⟨k0, v0⟩ := e
    by_cases h0 : k0 = k
    · subst h0
      by_cases h1 : k0 = k' <;> simp [mapSet, mapGet, h1]
    · by_cases h1 : k0 = k'
      · subst h1
        have h2 : ¬ k = k0 := fun h => h0 h.symm
        simp [mapSet, mapGet, h0, h2]
      · simp [mapSet, mapGet, h0, h1, ih]

theorem mapGet_foldl_mapSet {κ β : Type} [DecidableEq κ] (es : List (κ × β))
    (obj : List (κ × β)) (k : κ) :
    mapGet (es.foldl (fun o e => mapSet o e.1 e.2) obj) k =
      match lastVal es k with
      | some v => some v
      | none => mapGet obj k := by
  induction es generalizing obj with
  | nil => simp [lastVal]
  | cons e es ih =>
    rw [List.foldl_cons, ih]
    cases h : lastVal es k with
    | some v => simp [lastVal, h]
    | none =>
      by_cases h1 : e.1 = k <;> simp [lastVal, h, mapGet_mapSet, h1]

/-! ## Lemmas on the row object -/

theorem lastVal_enumFrom (f : Nat → JsVal) (hs : List Str) (n : Nat) (k : Str) :
    lastVal ((hs.enumFrom n).map (fun ih => (ih.2, f ih.1))) k =
      (lastIndexOf k hs).map (fun i => f (n + i)) := by
  induction hs generalizing n with
  | nil => simp [lastVal, lastIndexOf]
  | cons h hs ih =>
    simp only [List.enumFrom_cons, List.map_cons, lastVal, lastIndexOf, ih]
    cases h1 : lastIndexOf k hs with
    | some i => simp [Nat.add_assoc, Nat.add_comm 1 i]
    | none => by_cases h2 : h = k <;> simp [h2]

theorem getProp_rowObject (headers : List Str) (line : Str) (k : Str) :
    getProp (rowObject headers line) k =
      match lastIndexOf k headers with
      | some i => .str (cellAt line i)
      | none => .undefined := by
  unfold getProp rowObject fromEntries
  rw [mapGet_foldl_mapSet, List.enum, lastVal_enumFrom (fun i => JsVal.str ((cellsOf line).getD i []))]
  cases h : lastIndexOf k headers <;> simp [mapGet, cellAt]

theorem lastIndexOf_eq_none_iff (k : Str) (hs : List Str) :
    lastIndexOf k hs = none ↔ k ∉ hs := by
  induction hs with
  | nil => simp [lastIndexOf]
  | cons h hs ih =>
    simp only [lastIndexOf, List.mem_cons, not_or]
    cases h1 : lastIndexOf k hs with
    | some i =>
      have : k ∈ hs := by
        by_contra hc
        rw [ih.mpr hc] at h1; cases h1
      simp [this]
    | none =>
      have : k ∉ hs := ih.mp h1
      by_cases h2 : h = k
      · simp [h2]
      · have h3 : ¬ k = h := fun e => h2 e.symm
        simp [h2, h3, this]

theorem lastIndexOf_of_mem (k : Str) (hs : List Str) (h : k ∈ hs) :
    ∃ i, lastIndexOf k hs = some i := by
  cases h1 : lastIndexOf k hs with
  | some i => exact ⟨i, rfl⟩
  | none => exact absurd h ((lastIndexOf_eq_none_iff k hs).mp h1)

theorem lastIndexOf_of_count_one (k : Str) (hs : List Str) (i : Nat)
    (h : hs.count k = 1) (hi : hs[i]? = some k) : lastIndexOf k hs = some i := by
  induction hs generalizing i with
  | nil => simp at h
  | cons a hs ih =>
    cases i with
    | zero =>
      have h2 : a = k := by simpa using hi
      subst h2
      have h0 : hs.count a = 0 := by simpa using h
      have h3 : a ∉ hs := List.count_eq_zero.mp h0
      simp [lastIndexOf, (lastIndexOf_eq_none_iff a hs).mpr h3]
    | succ i =>
      have hi1 : hs[i]? = some k := by simpa using hi
      have hmem : k ∈ hs := List.getElem?_mem hi1
      have hpos : 0 < hs.count k := List.count_pos_iff.mpr hmem
      have h2 : ¬ a = k := by
        intro e
        subst e
        rw [List.count_cons_self] at h
        omega
      have h1 : hs.count k = 1 := by
        rw [List.count_cons_of_ne (fun e => h2 e.symm)] at h
        exact h
      simp [lastIndexOf, ih i h1 hi1]

/-- The record of a data line, read off the cells at the columns of the four
required names. -/
theorem recordOf_eq (headers : List Str) (line : Str) (iS iY iI iV : Nat)
    (hS : lastIndexOf "state".toList headers = some iS)
    (hY : lastIndexOf "year".toList headers = some iY)
    (hI : lastIndexOf "indicator".toList headers = some iI)
    (hV : lastIndexOf "value".toList headers = some iV) :
    recordOf headers line =
      { state := .str (cellAt line iS)
        year := stringToNumber (cellAt line iY)
        indicator := .str (cellAt line iI)
        value := stringToNumber (cellAt line iV) } := by
  simp only [recordOf, getProp_rowObject, hS, hY, hI, hV, toNumber]

theorem missingOf_eq_nil_iff (headers : List Str) :
    missingOf headers = [] ↔ ∀ n ∈ required, n ∈ headers := by
  simp [missingOf, List.filter_eq_nil_iff]

theorem mem_missingOf (headers : List Str) (n : Str) :
    n ∈ missingOf headers ↔ n ∈ required ∧ n ∉ headers := by
  simp [missingOf, List.mem_filter]

theorem parseCsv_of_lines (text header : Str) (rest : List Str)
    (hl : lines text = header :: rest) :
    parseCsv text =
      if missingOf (headersOf header) = [] then
        .ok ((rest.map (recordOf (headersOf header))).filter keepRow)
      else .error (.error (missingMessage (missingOf (headersOf header)))) := by
  unfold parseCsv
  rw [hl]
  by_cases h : missingOf (headersOf header) = []
  · simp [h]
  · have : (missingOf (headersOf header)).length ≠ 0 := by
      simpa [List.length_eq_zero] using h
    simp [h]

/-! ## Lemmas on trimming and line splitting -/

theorem dropWhile_of_exists (p : Char → Bool) (s : Str) (h : ∃ c ∈ s, p c = false) :
    ∃ c r, s.dropWhile p = c :: r ∧ p c = false := by
  induction s with
  | nil => simp at h
  | cons a s ih =>
    by_cases ha : p a = true
    · obtain ⟨c, hc, hpc⟩ := h
      have hc2 : c ∈ s := by
        rcases List.mem_cons.mp hc with e | e
        · subst e; rw [ha] at hpc; cases hpc
        · exact e
      obtain ⟨c', r, h1, h2⟩ := ih ⟨c, hc2, hpc⟩
      exact ⟨c', r, by simp [List.dropWhile, ha, h1], h2⟩
    · have ha2 : p a = false := by simpa using ha
      exact ⟨a, s, by simp [List.dropWhile, ha2], ha2⟩

theorem trimEnd_cons (c : Char) (r : Str) (hc : isJsWhitespace c = false) :
    ∃ r', trimEnd (c :: r) = c :: r' := by
  have hpre : trimEnd (c :: r) <+: c :: r := by
    have : trimEnd (c :: r) = (c :: r).rdropWhile isJsWhitespace := rfl
    rw [this]; exact List.rdropWhile_prefix _ _
  have hne : trimEnd (c :: r) ≠ [] := by
    have : trimEnd (c :: r) = (c :: r).rdropWhile isJsWhitespace := rfl
    rw [this]
    intro h0
    have := (List.rdropWhile_eq_nil_iff.mp h0) c (List.mem_cons_self _ _)
    rw [hc] at this; cases this
  obtain ⟨t, ht⟩ := hpre
  cases h1 : trimEnd (c :: r) with
  | nil => exact absurd h1 hne
  | cons a r' =>
    rw [h1] at ht
    have : a = c := by
      have := congrArg List.head? ht
      simpa using this
    subst this
    exact ⟨r', rfl⟩

theorem trim_of_exists (text : Str) (h : ∃ c ∈ text, isJsWhitespace c = false) :
    ∃ c r, trim text = c :: r ∧ isJsWhitespace c = false := by
  obtain ⟨c, r, h1, h2⟩ := dropWhile_of_exists isJsWhitespace text h
  obtain ⟨r', h3⟩ := trimEnd_cons c r h2
  refine ⟨c, r', ?_, h2⟩
  unfold trim trimStart
  rw [h1, h3]

theorem trim_of_blank (text : Str) (h : ∀ c ∈ text, isJsWhitespace c = true) :
    trim text = [] := by
  unfold trim trimStart
  rw [List.dropWhile_eq_nil_iff.mpr h]
  rfl

theorem consHead_eq (c : Char) (ls : List Str) : ∃ l rest, consHead c ls = (c :: l) :: rest := by
  cases ls with
  | nil => exact ⟨[], [], rfl⟩
  | cons l rest => exact ⟨l, rest, rfl⟩

theorem splitLines_cons (c : Char) (r : Str) (h1 : c ≠ '\n') (h2 : c ≠ '\r') :
    ∃ l rest, splitLines (c :: r) = (c :: l) :: rest := by
  cases r with
  | nil => exact ⟨[], [], by simp [splitLines, h1]⟩
  | cons d r =>
    obtain ⟨l, rest, h⟩ := consHead_eq c (splitLines (d :: r))
    exact ⟨l, rest, by simp [splitLines, h1, h2, h]⟩

/-- A text with a character that is not white space has a header line. -/
theorem lines_of_exists (text : Str) (h : ∃ c ∈ text, isJsWhitespace c = false) :
    ∃ header rest, lines text = header :: rest := by
  obtain ⟨c, r, h1, h2⟩ := trim_of_exists text h
  have hn : c ≠ '\n' := by
    intro e; subst e; revert h2; decide
  have hr : c ≠ '\r' := by
    intro e; subst e; revert h2; decide
  obtain ⟨l, rest, h3⟩ := splitLines_cons c r hn hr
  refine ⟨c :: l, rest.filter (fun l => !l.isEmpty), ?_⟩
  unfold lines
  rw [h1, h3]
  simp [List.filter]

/-- A text of white space only has no line at all. -/
theorem lines_of_blank (text : Str) (h : ∀ c ∈ text, isJsWhitespace c = true) :
    lines text = [] := by
  unfold lines
  rw [trim_of_blank text h]
  rfl

/-- On a text of white space only `parseCsv` throws the `TypeError` of
reading `split` from the missing header line. -/
theorem parseCsv_of_blank (text : Str) (h : ∀ c ∈ text, isJsWhitespace c = true) :
    parseCsv text = .error .typeError := by
  unfold parseCsv
  rw [lines_of_blank text h]

theorem keepRow_recordOfCells (c : Str × Str × Str × Str) :
    keepRow (recordOfCells c) = validCells c := by
  simp [keepRow, recordOfCells, validCells, truthy]

theorem filter_keepRow_map (iS iY iI iV : Nat) (ls : List Str) :
    (ls.map (fun line => recordOfCells (cellsAt iS iY iI iV line))).filter keepRow =
      ((ls.map (cellsAt iS iY iI iV)).filter validCells).map recordOfCells := by
  induction ls with
  | nil => rfl
  | cons line rest ih =>
    by_cases hv : validCells (cellsAt iS iY iI iV line) = true
    · simp [List.filter_cons, keepRow_recordOfCells, hv, ih]
    · simp [List.filter_cons, keepRow_recordOfCells, hv, ih]

/-- With the four required names in the header, the result of `parseCsv` is
the records of the valid data lines, read at the columns of those names. -/
theorem parseCsv_eq_cells (text header : Str) (rest : List Str)
    (hl : lines text = header :: rest) (iS iY iI iV : Nat)
    (hS : lastIndexOf "state".toList (headersOf header) = some iS)
    (hY : lastIndexOf "year".toList (headersOf header) = some iY)
    (hI : lastIndexOf "indicator".toList (headersOf header) = some iI)
    (hV : lastIndexOf "value".toList (headersOf header) = some iV) :
    parseCsv text =
      .ok (((rest.map (cellsAt iS iY iI iV)).filter validCells).map recordOfCells) := by
  have hmem : ∀ k i, lastIndexOf k (headersOf header) = some i → k ∈ headersOf header := by
    intro k i hk
    by_contra hc
    rw [(lastIndexOf_eq_none_iff k _).mpr hc] at hk
    cases hk
  have hmiss : missingOf (headersOf header) = [] := by
    rw [missingOf_eq_nil_iff]
    intro n hn
    simp only [required, List.mem_cons, List.mem_singleton, List.not_mem_nil, or_false] at hn
    rcases hn with e | e | e | e <;> subst e
    · exact hmem _ _ hS
    · exact hmem _ _ hY
    · exact hmem _ _ hI
    · exact hmem _ _ hV
  rw [parseCsv_of_lines text header rest hl, if_pos hmiss]
  have hrec : recordOf (headersOf header) = fun line => recordOfCells (cellsAt iS iY iI iV line) := by
    funext line
    rw [recordOf_eq (headersOf header) line iS iY iI iV hS hY hI hV]
    rfl
  rw [hrec, filter_keepRow_map]

theorem lastIndexOf_getElem (k : Str) (hs : List Str) (i : Nat)
    (h : lastIndexOf k hs = some i) : hs[i]? = some k := by
  induction hs generalizing i with
  | nil => simp [lastIndexOf] at h
  | cons a hs ih =>
    simp only [lastIndexOf] at h
    cases h1 : lastIndexOf k hs with
    | some j =>
      rw [h1] at h
      have : i = j + 1 := by simpa using h.symm
      subst this
      simpa using ih j h1
    | none =>
      rw [h1] at h
      by_cases h2 : a = k
      · have : i = 0 := by simpa [h2] using h.symm
        subst this
        simp [h2]
      · simp [h2] at h

theorem required_columns (headers : List Str) (hh : ∀ n ∈ required, n ∈ headers) :
    ∃ iS iY iI iV,
      lastIndexOf "state".toList headers = some iS ∧
      lastIndexOf "year".toList headers = some iY ∧
      lastIndexOf "indicator".toList headers = some iI ∧
      lastIndexOf "value".toList headers = some iV := by
  obtain ⟨iS, hS⟩ := lastIndexOf_of_mem "state".toList headers (hh _ (by simp [required]))
  obtain ⟨iY, hY⟩ := lastIndexOf_of_mem "year".toList headers (hh _ (by simp [required]))
  obtain ⟨iI, hI⟩ := lastIndexOf_of_mem "indicator".toList headers (hh _ (by simp [required]))
  obtain ⟨iV, hV⟩ := lastIndexOf_of_mem "value".toList headers (hh _ (by simp [required]))
  exact ⟨iS, iY, iI, iV, hS, hY, hI, hV⟩

/-! ## The parser -/

/-- Claim C1. For a text holding a character that is not white space, the
array `lines` has a first line, the header.  The array `missing` holds exactly
the required names absent from the header cells, in the order of `required`.
When a required name is absent `parseCsv` throws the error whose message lists
`missing`, and returns no record; when all four are present it returns. -/
theorem parseCsv_missing_columns (text : Str)
    (h : ∃ c ∈ text, isJsWhitespace c = false) :
    ∃ header rest, lines text = header :: rest ∧
      (∀ n, n ∈ missingOf (headersOf header) ↔ n ∈ required ∧ n ∉ headersOf header) ∧
      (missingOf (headersOf header)).Sublist required ∧
      ((∃ n ∈ required, n ∉ headersOf header) →
        parseCsv text = .error (.error (missingMessage (missingOf (headersOf header))))) ∧
      ((∀ n ∈ required, n ∈ headersOf header) → ∃ rows, parseCsv text = .ok rows) := by
  obtain ⟨header, rest, hl⟩ := lines_of_exists text h
  refine ⟨header, rest, hl, mem_missingOf _, List.filter_sublist _, ?_, ?_⟩
  · rintro ⟨n, hn, hnot⟩
    have hne : missingOf (headersOf header) ≠ [] := by
      intro h0
      exact hnot ((missingOf_eq_nil_iff _).mp h0 n hn)
    rw [parseCsv_of_lines text header rest hl, if_neg hne]
  · intro hall
    have h0 : missingOf (headersOf header) = [] := (missingOf_eq_nil_iff _).mpr hall
    exact ⟨_, by rw [parseCsv_of_lines text header rest hl, if_pos h0]⟩

/-- Witness of C1: the input without a `state` column is refused with the
message listing `state`. -/
theorem parseCsv_missing_columns_witness :
    (∃ c ∈ csvMissingState, isJsWhitespace c = false) ∧
    parseCsv csvMissingState =
      .error (.error "CSV missing required columns: state".toList) ∧
    (∃ header rest, lines csvMissingState = header :: rest ∧
      (∀ n, n ∈ missingOf (headersOf header) ↔ n ∈ required ∧ n ∉ headersOf header) ∧
      (missingOf (headersOf header)).Sublist required ∧
      ((∃ n ∈ required, n ∉ headersOf header) →
        parseCsv csvMissingState =
          .error (.error (missingMessage (missingOf (headersOf header))))) ∧
      ((∀ n ∈ required, n ∈ headersOf header) → ∃ rows, parseCsv csvMissingState = .ok rows)) :=
  ⟨⟨'y', by decide, by decide⟩, by rfl,
    parseCsv_missing_columns csvMissingState ⟨'y', by decide, by decide⟩⟩

/-- Claim C2. With the four required names in the header, `parseCsv` returns,
in line order, one record for each data line (each non-empty line after the
header) that is valid: its state cell is not empty and its year and value
cells convert to finite numbers.  The cells are those at the columns of the
header cells carrying the names.  Other lines give no record and no error, and
a header alone gives the empty sequence. -/
theorem parseCsv_valid_lines (text header : Str) (rest : List Str)
    (hl : lines text = header :: rest)
    (hh : ∀ n ∈ required, n ∈ headersOf header) :
    ∃ iS iY iI iV,
      (headersOf header)[iS]? = some "state".toList ∧
      (headersOf header)[iY]? = some "year".toList ∧
      (headersOf header)[iI]? = some "indicator".toList ∧
      (headersOf header)[iV]? = some "value".toList ∧
      parseCsv text =
        .ok (((rest.map (cellsAt iS iY iI iV)).filter validCells).map recordOfCells) ∧
      (rest = [] → parseCsv text = .ok []) := by
  obtain ⟨iS, iY, iI, iV, hS, hY, hI, hV⟩ := required_columns (headersOf header) hh
  have hp := parseCsv_eq_cells text header rest hl iS iY iI iV hS hY hI hV
  refine ⟨iS, iY, iI, iV, lastIndexOf_getElem _ _ _ hS, lastIndexOf_getElem _ _ _ hY,
    lastIndexOf_getElem _ _ _ hI, lastIndexOf_getElem _ _ _ hV, hp, ?_⟩
  intro hr
  rw [hp, hr]
  rfl

/-- Witness of C2: the input whose only data line has a blank state gives no
record. -/
theorem parseCsv_valid_lines_witness :
    lines csvBlankState = ["state,year,indicator,value".toList, ",2020,X,10".toList] ∧
    (∀ n ∈ required, n ∈ headersOf "state,year,indicator,value".toList) ∧
    parseCsv csvBlankState = .ok [] ∧
    (∃ iS iY iI iV,
      (headersOf "state,year,indicator,value".toList)[iS]? = some "state".toList ∧
      (headersOf "state,year,indicator,value".toList)[iY]? = some "year".toList ∧
      (headersOf "state,year,indicator,value".toList)[iI]? = some "indicator".toList ∧
      (headersOf "state,year,indicator,value".toList)[iV]? = some "value".toList ∧
      parseCsv csvBlankState =
        .ok ((([",2020,X,10".toList].map (cellsAt iS iY iI iV)).filter validCells).map
          recordOfCells) ∧
      ([",2020,X,10".toList] = [] → parseCsv csvBlankState = .ok [])) :=
  ⟨by rfl, by decide, by rfl,
    parseCsv_valid_lines csvBlankState "state,year,indicator,value".toList
      [",2020,X,10".toList] (by rfl) (by decide)⟩

/-- Claim C6, evaluated on the code: on the empty text and on a text of white
space only there is no header line, and `parseCsv` throws the `TypeError` of
calling `split` on `undefined`, not the error that lists the four missing
columns. -/
theorem parseCsv_empty_text :
    lines [] = [] ∧
    parseCsv [] = .error .typeError ∧
    parseCsv "  \r\n \n".toList = .error .typeError ∧
    parseCsv [] ≠ .error (.error (missingMessage required)) :=
  ⟨by rfl, by rfl, by rfl, by simp [parseCsv_of_blank]⟩

/-- Claim C7, evaluated on the code: a cell missing at the end of a line is
read as the empty string, `Number` of the empty string is the finite number
`0`, and so a line without its value cell gives a record of value `0`; a
hexadecimal cell is converted as well. -/
theorem parseCsv_empty_cell :
    cellAt "A,2020,X".toList 3 = [] ∧
    stringToNumber [] = .finite 0 ∧
    (stringToNumber []).isFinite = true ∧
    stringToNumber "0x10".toList = .finite 16 ∧
    parseCsv csvMissingValue =
      .ok [{ state := .str "A".toList, year := .finite 2020,
             indicator := .str "X".toList, value := .finite 0 }] :=
  ⟨by rfl, by rfl, by rfl, by rfl, by rfl⟩

/-- Claim C8. When the header cells, trimmed and lower-cased, carry each of the
four required names exactly once, at the columns `iS`, `iY`, `iI` and `iV`
(whatever the order and whatever other columns stand between them),
`parseCsv` returns the records of the valid data lines, each made of the
trimmed cells at those four columns; a text with the same header whose data
lines have the same cells at those columns gives the same result. -/
theorem parseCsv_header_layout (text header : Str) (rest : List Str)
    (hl : lines text = header :: rest) (iS iY iI iV : Nat)
    (hS : (headersOf header)[iS]? = some "state".toList)
    (hY : (headersOf header)[iY]? = some "year".toList)
    (hI : (headersOf header)[iI]? = some "indicator".toList)
    (hV : (headersOf header)[iV]? = some "value".toList)
    (cS : (headersOf header).count "state".toList = 1)
    (cY : (headersOf header).count "year".toList = 1)
    (cI : (headersOf header).count "indicator".toList = 1)
    (cV : (headersOf header).count "value".toList = 1) :
    parseCsv text =
      .ok (((rest.map (cellsAt iS iY iI iV)).filter validCells).map recordOfCells) ∧
    ∀ (text' : Str) (rest' : List Str), lines text' = header :: rest' →
      rest'.map (cellsAt iS iY iI iV) = rest.map (cellsAt iS iY iI iV) →
      parseCsv text' = parseCsv text := by
  have lS := lastIndexOf_of_count_one _ _ iS cS hS
  have lY := lastIndexOf_of_count_one _ _ iY cY hY
  have lI := lastIndexOf_of_count_one _ _ iI cI hI
  have lV := lastIndexOf_of_count_one _ _ iV cV hV
  have hp := parseCsv_eq_cells text header rest hl iS iY iI iV lS lY lI lV
  refine ⟨hp, ?_⟩
  intro text' rest' hl' hcells
  rw [hp, parseCsv_eq_cells text' header rest' hl' iS iY iI iV lS lY lI lV, hcells]

/-- Witness of C8: a header in mixed case, padded, reordered and with an extra
column. -/
theorem parseCsv_header_layout_witness :
    lines csvReordered =
      ["Value ,extra, STATE,Indicator,year".toList, "10,zz, A ,X,2020".toList,
        "7,,,X,2021".toList] ∧
    headersOf "Value ,extra, STATE,Indicator,year".toList =
      ["value".toList, "extra".toList, "state".toList, "indicator".toList, "year".toList] ∧
    (headersOf "Value ,extra, STATE,Indicator,year".toList)[2]? = some "state".toList ∧
    (headersOf "Value ,extra, STATE,Indicator,year".toList).count "state".toList = 1 ∧
    parseCsv csvReordered =
      .ok [{ state := .str "A".toList, year := .finite 2020,
             indicator := .str "X".toList, value := .finite 10 }] ∧
    (parseCsv csvReordered =
      .ok (((["10,zz, A ,X,2020".toList, "7,,,X,2021".toList].map (cellsAt 2 4 3 0)).filter
        validCells).map recordOfCells) ∧
    ∀ (text' : Str) (rest' : List Str),
      lines text' = "Value ,extra, STATE,Indicator,year".toList :: rest' →
      rest'.map (cellsAt 2 4 3 0) =
        ["10,zz, A ,X,2020".toList, "7,,,X,2021".toList].map (cellsAt 2 4 3 0) →
      parseCsv text' = parseCsv csvReordered) :=
  ⟨by rfl, by rfl, by rfl, by decide, by rfl,
    parseCsv_header_layout csvReordered "Value ,extra, STATE,Indicator,year".toList
      ["10,zz, A ,X,2020".toList, "7,,,X,2021".toList] (by rfl) 2 4 3 0
      (by rfl) (by rfl) (by rfl) (by rfl) (by decide) (by decide) (by decide) (by decide)⟩

/-- Claim C9 as amended. Every record returned by `parseCsv` has a non-empty
string as state, a finite value and a finite year. -/
theorem parseCsv_record_invariant (text : Str) (rows : List Row)
    (h : parseCsv text = .ok rows) :
    ∀ r ∈ rows, (∃ s, r.state = .str s ∧ s ≠ []) ∧
      r.year.isFinite = true ∧ r.value.isFinite = true := by
  cases hl : lines text with
  | nil =>
    unfold parseCsv at h
    rw [hl] at h
    cases h
  | cons header rest =>
    by_cases hm : missingOf (headersOf header) = []
    · obtain ⟨iS, iY, iI, iV, hS, hY, hI, hV⟩ :=
        required_columns (headersOf header) ((missingOf_eq_nil_iff _).mp hm)
      rw [parseCsv_eq_cells text header rest hl iS iY iI iV hS hY hI hV] at h
      injection h with h
      subst h
      intro r hr
      obtain ⟨c, hc, rfl⟩ := List.mem_map.mp hr
      have hv : validCells c = true := (List.mem_filter.mp hc).2
      simp only [validCells, Bool.and_eq_true, Bool.not_eq_true', List.isEmpty_eq_false] at hv
      exact ⟨⟨c.1, rfl, hv.1.1⟩, hv.1.2, hv.2⟩
    · rw [parseCsv_of_lines text header rest hl, if_neg hm] at h
      cases h

/-- Witness of the amended C9 on the input with a fractional year. -/
theorem parseCsv_record_invariant_witness :
    parseCsv csvFractionalYear =
      .ok [{ state := .str "A".toList, year := .finite (mkRat 20205 10),
             indicator := .str "X".toList, value := .finite 10 }] ∧
    ∀ r ∈ [({ state := .str "A".toList, year := .finite (mkRat 20205 10),
              indicator := .str "X".toList, value := .finite 10 } : Row)],
      (∃ s, r.state = .str s ∧ s ≠ []) ∧ r.year.isFinite = true ∧ r.value.isFinite = true :=
  ⟨by rfl, parseCsv_record_invariant csvFractionalYear _ (by rfl)⟩

/-- Counterexample to C9 as stated: the year cell `2020.5` passes the filter,
and the record returned has the year `20205/10`, which is not an integer. -/
theorem parseCsv_year_not_integer :
    ¬ (∀ (text : Str) (rows : List Row), parseCsv text = .ok rows →
        ∀ r ∈ rows, (∃ s, r.state = .str s ∧ s ≠ []) ∧ r.value.isFinite = true ∧
          ∃ n : ℤ, r.year = .finite (n : ℚ)) := by
  intro hall
  have hp : parseCsv csvFractionalYear =
      .ok [{ state := .str "A".toList, year := .finite (mkRat 20205 10),
             indicator := .str "X".toList, value := .finite 10 }] := by rfl
  obtain ⟨_, _, n, hn⟩ := hall _ _ hp _ (List.mem_singleton.mpr rfl)
  have hq : (mkRat 20205 10 : ℚ) = (n : ℚ) := by
    simpa using hn
  have h2 : (4041 : ℚ) = 2 * (n : ℚ) := by
    rw [← hq, Rat.mkRat_eq_div]
    norm_num
  have h3 : (4041 : ℤ) = 2 * n := by exact_mod_cast h2
  omega

/-! ## Lemmas on the aggregation pass -/

theorem mem_firstKeys (ks : List JsVal) (x : JsVal) : x ∈ firstKeys ks ↔ x ∈ ks := by
  induction ks with
  | nil => simp [firstKeys]
  | cons k ks ih =>
    simp only [firstKeys, List.mem_cons, List.mem_filter, ih, decide_eq_true_eq]
    by_cases h : x = k <;> simp [h]

theorem nodup_firstKeys (ks : List JsVal) : (firstKeys ks).Nodup := by
  induction ks with
  | nil => simp [firstKeys]
  | cons k ks ih =>
    simp only [firstKeys, List.nodup_cons, List.mem_filter, decide_eq_true_eq]
    exact ⟨fun h => h.2 rfl, ih.filter _⟩

theorem firstKeys_append_singleton (ks : List JsVal) (k : JsVal) :
    firstKeys (ks ++ [k]) = if k ∈ ks then firstKeys ks else firstKeys ks ++ [k] := by
  induction ks with
  | nil => simp [firstKeys]
  | cons a ks ih =>
    rw [List.cons_append, firstKeys, ih]
    by_cases h1 : k ∈ ks
    · simp [h1, firstKeys]
    · by_cases h2 : k = a
      · subst h2
        simp [h1, List.filter_append, firstKeys]
      · simp [h1, h2, List.filter_append, firstKeys]

theorem mapGet_map_keys {β : Type} (L : List JsVal) (f : JsVal → β) (k0 : JsVal) :
    mapGet (L.map (fun k => (k, f k))) k0 = if k0 ∈ L then some (f k0) else none := by
  induction L with
  | nil => simp [mapGet]
  | cons a L ih =>
    by_cases h : a = k0
    · subst h; simp [mapGet]
    · have h2 : ¬ k0 = a := fun e => h e.symm
      simp [mapGet, h, h2, ih]

theorem mapSet_map_keys {β : Type} (L : List JsVal) (hL : L.Nodup) (f : JsVal → β)
    (k0 : JsVal) (v : β) :
    mapSet (L.map (fun k => (k, f k))) k0 v =
      if k0 ∈ L then L.map (fun k => (k, if k = k0 then v else f k))
      else L.map (fun k => (k, f k)) ++ [(k0, v)] := by
  induction L with
  | nil => simp [mapSet]
  | cons a L ih =>
    obtain ⟨ha, hL'⟩ := List.nodup_cons.mp hL
    by_cases h : a = k0
    · subst h
      have hc : L.map (fun k => (k, if k = a then v else f k)) = L.map (fun k => (k, f k)) := by
        apply List.map_congr_left
        intro k hk
        have : k ≠ a := fun e => ha (e ▸ hk)
        simp [this]
      simp [mapSet, hc]
    · have h2 : ¬ k0 = a := fun e => h e.symm
      by_cases h3 : k0 ∈ L
      · simp [mapSet, h, h2, h3, ih hL']
      · simp [mapSet, h, h2, h3, ih hL']

theorem groupAcc_append_of_eq (rnd : ℚ → JsNum) (rs : List Row) (r : Row) (key : Str) :
    groupAcc rnd (rs ++ [r]) key (r.get key) =
      { sum := (groupAcc rnd rs key (r.get key)).sum.add rnd r.value
        count := (groupAcc rnd rs key (r.get key)).count + 1 } := by
  simp [groupAcc, groupRunningSum, groupCount, groupRows, List.filter_append, List.foldl_append]

theorem groupAcc_append_of_ne (rnd : ℚ → JsNum) (rs : List Row) (r : Row) (key : Str)
    (k : JsVal) (hk : r.get key ≠ k) :
    groupAcc rnd (rs ++ [r]) key k = groupAcc rnd rs key k := by
  simp [groupAcc, groupRunningSum, groupCount, groupRows, List.filter_append, hk]

theorem groupAcc_of_not_mem (rnd : ℚ → JsNum) (rs : List Row) (key : Str) (k : JsVal)
    (hk : k ∉ rs.map (fun r => r.get key)) :
    groupAcc rnd rs key k = { sum := .finite 0, count := 0 } := by
  have h0 : groupRows rs key k = [] := by
    unfold groupRows
    rw [List.filter_eq_nil_iff]
    intro r hr
    have : r.get key ≠ k := fun e => hk (List.mem_map.mpr ⟨r, hr, e⟩)
    simpa using this
  simp [groupAcc, groupRunningSum, groupCount, h0]

/-- The map `agg` after the pass over `rows`: the keys in the order in which
they are first met, each with the running sum and the count of its records. -/
theorem aggregate_eq (rnd : ℚ → JsNum) (rows : List Row) (key : Str) :
    aggregate rnd rows key =
      (firstKeys (rows.map (fun r => r.get key))).map
        (fun k => (k, groupAcc rnd rows key k)) := by
  induction rows using List.reverseRecOn with
  | nil => rfl
  | append_singleton rs r ih =>
    have hstep : aggregate rnd (rs ++ [r]) key = aggStep rnd key (aggregate rnd rs key) r := by
      simp [aggregate, List.foldl_append]
    rw [hstep, ih]
    unfold aggStep
    rw [mapGet_map_keys, mapSet_map_keys _ (nodup_firstKeys _), List.map_append,
      List.map_singleton, firstKeys_append_singleton]
    simp only [mem_firstKeys]
    by_cases hk : r.get key ∈ rs.map (fun r => r.get key)
    · simp only [hk, if_true, Option.getD_some]
      apply List.map_congr_left
      intro k _
      by_cases hkk : k = r.get key
      · subst hkk
        simp [groupAcc_append_of_eq rnd rs r key]
      · have : r.get key ≠ k := fun e => hkk e.symm
        simp [hkk, groupAcc_append_of_ne rnd rs r key k this]
    · simp only [hk, if_false, Option.getD_none, List.map_append, List.map_singleton]
      congr 1
      · apply List.map_congr_left
        intro k hkm
        have hkm' : k ∈ rs.map (fun r => r.get key) := (mem_firstKeys _ _).mp hkm
        have : r.get key ≠ k := fun e => hk (e ▸ hkm')
        simp [groupAcc_append_of_ne rnd rs r key k this]
      · rw [groupAcc_append_of_eq rnd rs r key, groupAcc_of_not_mem rnd rs key _ hk]

theorem groupCount_pos (rows : List Row) (key : Str) (k : JsVal)
    (hk : k ∈ rows.map (fun r => r.get key)) : 0 < groupCount rows key k := by
  obtain ⟨r, hr, hrk⟩ := List.mem_map.mp hk
  unfold groupCount groupRows
  apply List.length_pos_of_mem (a := r)
  simp [List.mem_filter, hr, hrk]

/-- The result of `groupAverage`, whatever the rounding: the quotients of the
groups, taken in the order in which the keys are first met and then sorted by
insertion. -/
theorem groupAverageWith_eq (rnd : ℚ → JsNum) (rows : List Row) (key : Str) :
    groupAverageWith rnd rows key =
      (quotientsInOrder rnd rows key).insertionSort (staysBefore rnd) := by
  unfold groupAverageWith sortByAvg quotientsInOrder
  rw [aggregate_eq, List.map_map]
  rfl

theorem keys_quotientsInOrder (rnd : ℚ → JsNum) (rows : List Row) (key : Str) :
    (quotientsInOrder rnd rows key).map Prod.fst = firstKeys (rows.map (fun r => r.get key)) := by
  unfold quotientsInOrder
  rw [List.map_map]
  simp [Function.comp_def]

theorem mem_quotientsInOrder (rnd : ℚ → JsNum) (rows : List Row) (key : Str)
    (e : JsVal × JsNum) :
    e ∈ quotientsInOrder rnd rows key ↔
      e.1 ∈ rows.map (fun r => r.get key) ∧ e.2 = groupQuotient rnd rows key e.1 := by
  unfold quotientsInOrder
  constructor
  · intro h
    obtain ⟨k, hk, rfl⟩ := List.mem_map.mp h
    exact ⟨(mem_firstKeys _ _).mp hk, rfl⟩
  · rintro ⟨h1, h2⟩
    exact List.mem_map.mpr ⟨e.1, (mem_firstKeys _ _).mpr h1, by rw [← h2]⟩

theorem mem_groupAverageWith (rnd : ℚ → JsNum) (rows : List Row) (key : Str)
    (e : JsVal × JsNum) :
    e ∈ groupAverageWith rnd rows key ↔
      e.1 ∈ rows.map (fun r => r.get key) ∧ e.2 = groupQuotient rnd rows key e.1 := by
  rw [groupAverageWith_eq, (List.perm_insertionSort _ _).mem_iff, mem_quotientsInOrder]

theorem keys_groupAverageWith (rnd : ℚ → JsNum) (rows : List Row) (key : Str) :
    ((groupAverageWith rnd rows key).map Prod.fst).Perm
      (firstKeys (rows.map (fun r => r.get key))) := by
  rw [groupAverageWith_eq, ← keys_quotientsInOrder rnd]
  exact (List.perm_insertionSort _ _).map _

theorem pair_sublist_firstKeys (ks : List JsVal) (k1 k2 : JsVal)
    (hlt : ks.indexOf k1 < ks.indexOf k2) (h2 : k2 ∈ ks) :
    List.Sublist [k1, k2] (firstKeys ks) := by
  induction ks with
  | nil => simp at h2
  | cons a ks ih =>
    by_cases ha2 : a = k2
    · subst ha2
      simp at hlt
    · have hk2 : k2 ∈ ks := by
        rcases List.mem_cons.mp h2 with e | e
        · exact absurd e.symm ha2
        · exact e
      by_cases ha1 : a = k1
      · subst ha1
        rw [firstKeys]
        apply List.Sublist.cons₂
        apply List.singleton_sublist.mpr
        rw [List.mem_filter]
        exact ⟨(mem_firstKeys _ _).mpr hk2, by simpa using fun e => ha2 e.symm⟩
      · rw [List.indexOf_cons_ne _ ha1, List.indexOf_cons_ne _ ha2] at hlt
        have hsub := ih (by omega) hk2
        have hf := hsub.filter (fun x => decide (x ≠ a))
        have hpair : [k1, k2].filter (fun x => decide (x ≠ a)) = [k1, k2] := by
          have e1 : ¬ k1 = a := fun e => ha1 e.symm
          have e2 : ¬ k2 = a := fun e => ha2 e.symm
          simp [List.filter_cons, e1, e2]
        rw [hpair] at hf
        rw [firstKeys]
        exact hf.cons a

/-! ## Lemmas on binary64 rounding -/

theorem ilog2Aux_ge (bs : List Nat) (n acc : Nat) : acc ≤ ilog2Aux bs n acc := by
  induction bs generalizing n acc with
  | nil => simp [ilog2Aux]
  | cons b bs ih =>
    unfold ilog2Aux
    split_ifs
    · exact ih n acc
    · exact le_trans (Nat.le_add_right acc b) (ih (n >>> b) (acc + b))

theorem ilog2Aux_pow_le (bs : List Nat) (n acc : Nat) (hn : 0 < n) :
    2 ^ (ilog2Aux bs n acc - acc) ≤ n := by
  induction bs generalizing n acc with
  | nil =>
    simp only [ilog2Aux, Nat.sub_self, pow_zero]
    omega
  | cons b bs ih =>
    unfold ilog2Aux
    split_ifs with h
    · exact ih n acc hn
    · have hn' : 0 < n >>> b := Nat.pos_of_ne_zero h
      have h1 := ih (n >>> b) (acc + b) hn'
      have h2 := ilog2Aux_ge bs (n >>> b) (acc + b)
      have h3 : ilog2Aux bs (n >>> b) (acc + b) - acc =
          (ilog2Aux bs (n >>> b) (acc + b) - (acc + b)) + b := by omega
      rw [h3, pow_add]
      calc 2 ^ (ilog2Aux bs (n >>> b) (acc + b) - (acc + b)) * 2 ^ b
          ≤ (n >>> b) * 2 ^ b := Nat.mul_le_mul_right _ h1
        _ = (n / 2 ^ b) * 2 ^ b := by rw [Nat.shiftRight_eq_div_pow]
        _ ≤ n := Nat.div_mul_le_self n (2 ^ b)

/-- The power of two at the leading bit does not exceed the number. -/
theorem ilog2_pow_le (n : Nat) (hn : 0 < n) : 2 ^ ilog2 n ≤ n := by
  have := ilog2Aux_pow_le bitSteps n 0 hn
  simpa [ilog2] using this

theorem ilog2Aux_lt (bs : List Nat) (hbs : bs.Chain' (fun b c => b = 2 * c))
    (hlast : bs.getLast? = some 1 ∨ bs = []) (n acc : Nat)
    (hn : n < 2 ^ (2 * bs.headD 0 + (if bs = [] then 1 else 0))) :
    n < 2 ^ (ilog2Aux bs n acc - acc + 1) := by
  induction bs generalizing n acc with
  | nil =>
    simpa [ilog2Aux] using hn
  | cons b bs ih =>
    have hn' : n < 2 ^ (2 * b) := by simpa using hn
    have hbs' : bs.Chain' (fun b c => b = 2 * c) := (List.chain'_cons'.mp hbs).2
    have hlast' : bs.getLast? = some 1 ∨ bs = [] := by
      cases bs with
      | nil => exact Or.inr rfl
      | cons c cs =>
        left
        rcases hlast with h | h
        · simpa [List.getLast?_cons_cons] using h
        · cases h
    have hb : 2 * bs.headD 0 + (if bs = [] then 1 else 0) = b := by
      cases bs with
      | nil =>
        rcases hlast with h | h
        · have : b = 1 := by simpa using h
          simp [this]
        · cases h
      | cons c cs =>
        have : b = 2 * c := by
          have := (List.chain'_cons'.mp hbs).1 c (by simp)
          exact this
        simp [this]
    unfold ilog2Aux
    split_ifs with h
    · apply ih hbs' hlast'
      rw [hb]
      rw [Nat.shiftRight_eq_div_pow, Nat.div_eq_zero_iff (by positivity)] at h
      exact h
    · have h2 := ilog2Aux_ge bs (n >>> b) (acc + b)
      have h1 := ih hbs' hlast' (n >>> b) (acc + b) (by
        rw [hb, Nat.shiftRight_eq_div_pow, Nat.div_lt_iff_lt_mul (by positivity), ← pow_add]
        have : b + b = 2 * b := by ring
        rw [this]
        exact hn')
      have h1 := lt_of_eq_of_lt (Nat.shiftRight_eq_div_pow n b).symm h1
      rw [Nat.div_lt_iff_lt_mul (by positivity), ← pow_add] at h1
      have h3 : ilog2Aux bs (n >>> b) (acc + b) - (acc + b) + 1 + b =
          ilog2Aux bs (n >>> b) (acc + b) - acc + 1 := by omega
      rw [h3] at h1
      exact h1

/-- Below `2 ^ 4096` the number is less than twice the power of two at its
leading bit: with `ilog2_pow_le`, `ilog2 n` is the integer part of the binary
logarithm of `n`. -/
theorem lt_pow_ilog2 (n : Nat) (hn : n < 2 ^ 4096) : n < 2 ^ (ilog2 n + 1) := by
  have hb : 2 * bitSteps.headD 0 + (if bitSteps = [] then 1 else 0) = 4096 := by decide
  have h := ilog2Aux_lt bitSteps (by simp [bitSteps]) (Or.inl (by simp [bitSteps])) n 0
    (by rw [hb]; exact hn)
  simpa [ilog2] using h

theorem unitsPerOne_pos : 0 < unitsPerOne := by
  unfold unitsPerOne
  positivity

/-- A magnitude of at least one step of `2 ^ (-1074)` does not round to
zero. -/
theorem roundUnits_pos (num den : Nat) (hden : 0 < den) (h : den ≤ num * unitsPerOne) :
    0 < roundUnits num den := by
  have hfl : 0 < num * unitsPerOne / den := Nat.div_pos h hden
  have hshift : 2 ^ (ilog2 (num * unitsPerOne / den) - 52) ≤ num * unitsPerOne / den :=
    le_trans (Nat.pow_le_pow_right (by norm_num) (Nat.sub_le _ _)) (ilog2_pow_le _ hfl)
  have hds : den * 2 ^ (ilog2 (num * unitsPerOne / den) - 52) ≤ num * unitsPerOne :=
    le_trans (Nat.mul_le_mul_left _ hshift) (Nat.mul_div_le _ den)
  have hdpos : 0 < den * 2 ^ (ilog2 (num * unitsPerOne / den) - 52) := by positivity
  have hn : 0 < num * unitsPerOne / (den * 2 ^ (ilog2 (num * unitsPerOne / den) - 52)) :=
    Nat.div_pos hds hdpos
  unfold roundUnits
  simp only [Nat.shiftLeft_eq]
  apply Nat.mul_pos
  · split_ifs <;> omega
  · positivity

/-- The rounded value is a multiple of the spacing `2 ^ shift` of the binary64
values around `num / den`, and no further from `num / den` than half that
spacing; on a tie it is the even multiple. -/
theorem roundUnits_nearest (num den : Nat) (hden : 0 < den) :
    ∃ m : Nat, roundUnits num den = m * 2 ^ (ilog2 (num * unitsPerOne / den) - 52) ∧
      2 * ((roundUnits num den * den : ℤ) - (num * unitsPerOne : ℤ)).natAbs ≤
        den * 2 ^ (ilog2 (num * unitsPerOne / den) - 52) ∧
      (2 * ((roundUnits num den * den : ℤ) - (num * unitsPerOne : ℤ)).natAbs =
        den * 2 ^ (ilog2 (num * unitsPerOne / den) - 52) → m % 2 = 0) := by
  have hd : 0 < den * 2 ^ (ilog2 (num * unitsPerOne / den) - 52) := by positivity
  have hdiv := Nat.div_add_mod (num * unitsPerOne)
    (den * 2 ^ (ilog2 (num * unitsPerOne / den) - 52))
  have hmod := Nat.mod_lt (num * unitsPerOne) hd
  generalize hD : den * 2 ^ (ilog2 (num * unitsPerOne / den) - 52) = D at hd hdiv hmod
  generalize hN : num * unitsPerOne / D = n at hdiv
  generalize hR : num * unitsPerOne % D = r at hdiv hmod
  have hval : ∀ m : Nat, roundUnits num den = m * 2 ^ (ilog2 (num * unitsPerOne / den) - 52) →
      (roundUnits num den * den : ℤ) = (m : ℤ) * (D : ℤ) := by
    intro m hm
    rw [hm, ← hD]
    push_cast
    ring
  have hs : ((num * unitsPerOne : ℕ) : ℤ) = (D : ℤ) * (n : ℤ) + (r : ℤ) := by
    exact_mod_cast hdiv.symm
  have hru : roundUnits num den =
      (if (if 2 * r < D then false else if D < 2 * r then true else n % 2 == 1) = true
        then n + 1 else n) * 2 ^ (ilog2 (num * unitsPerOne / den) - 52) := by
    unfold roundUnits
    simp only [Nat.shiftLeft_eq, hD, hN, hR]
  by_cases h1 : 2 * r < D
  · have hm : roundUnits num den = n * 2 ^ (ilog2 (num * unitsPerOne / den) - 52) := by
      rw [hru]; simp [h1]
    refine ⟨n, hm, ?_, ?_⟩
    · rw [hval n hm]
      push_cast at hs ⊢
      rw [hs]
      have : ((n : ℤ) * (D : ℤ) - ((D : ℤ) * (n : ℤ) + (r : ℤ))).natAbs = r := by
        have : (n : ℤ) * (D : ℤ) - ((D : ℤ) * (n : ℤ) + (r : ℤ)) = -(r : ℤ) := by ring
        rw [this]; simp
      omega
    · intro heq
      rw [hval n hm] at heq
      push_cast at hs heq
      rw [hs] at heq
      have : ((n : ℤ) * (D : ℤ) - ((D : ℤ) * (n : ℤ) + (r : ℤ))).natAbs = r := by
        have : (n : ℤ) * (D : ℤ) - ((D : ℤ) * (n : ℤ) + (r : ℤ)) = -(r : ℤ) := by ring
        rw [this]; simp
      omega
  · by_cases h2 : D < 2 * r
    · have hm : roundUnits num den =
          (n + 1) * 2 ^ (ilog2 (num * unitsPerOne / den) - 52) := by
        rw [hru]; simp [h1, h2]
      refine ⟨n + 1, hm, ?_, ?_⟩
      · rw [hval (n + 1) hm]
        push_cast at hs ⊢
        rw [hs]
        have : (((n : ℤ) + 1) * (D : ℤ) - ((D : ℤ) * (n : ℤ) + (r : ℤ))).natAbs = D - r := by
          have : ((n : ℤ) + 1) * (D : ℤ) - ((D : ℤ) * (n : ℤ) + (r : ℤ)) =
              ((D - r : ℕ) : ℤ) := by
            rw [Nat.cast_sub hmod.le]; ring
          rw [this]; simp
        omega
      · intro heq
        rw [hval (n + 1) hm] at heq
        push_cast at hs heq
        rw [hs] at heq
        have : (((n : ℤ) + 1) * (D : ℤ) - ((D : ℤ) * (n : ℤ) + (r : ℤ))).natAbs = D - r := by
          have : ((n : ℤ) + 1) * (D : ℤ) - ((D : ℤ) * (n : ℤ) + (r : ℤ)) =
              ((D - r : ℕ) : ℤ) := by
            rw [Nat.cast_sub hmod.le]; ring
          rw [this]; simp
        omega
    · have htie : 2 * r = D := by omega
      by_cases h3 : n % 2 = 1
      · have hm : roundUnits num den =
            (n + 1) * 2 ^ (ilog2 (num * unitsPerOne / den) - 52) := by
          rw [hru]; simp [h1, h2, h3]
        refine ⟨n + 1, hm, ?_, fun _ => by omega⟩
        rw [hval (n + 1) hm]
        push_cast at hs ⊢
        rw [hs]
        have : (((n : ℤ) + 1) * (D : ℤ) - ((D : ℤ) * (n : ℤ) + (r : ℤ))).natAbs = D - r := by
          have : ((n : ℤ) + 1) * (D : ℤ) - ((D : ℤ) * (n : ℤ) + (r : ℤ)) =
              ((D - r : ℕ) : ℤ) := by
            rw [Nat.cast_sub hmod.le]; ring
          rw [this]; simp
        omega
      · have hm : roundUnits num den = n * 2 ^ (ilog2 (num * unitsPerOne / den) - 52) := by
          rw [hru]; simp [h1, h2, h3]
        refine ⟨n, hm, ?_, fun _ => by omega⟩
        rw [hval n hm]
        push_cast at hs ⊢
        rw [hs]
        have : ((n : ℤ) * (D : ℤ) - ((D : ℤ) * (n : ℤ) + (r : ℤ))).natAbs = r := by
          have : (n : ℤ) * (D : ℤ) - ((D : ℤ) * (n : ℤ) + (r : ℤ)) = -(r : ℤ) := by ring
          rw [this]; simp
        omega

theorem ofMagnitude_ne_nan (negative : Bool) (num den : Nat) :
    ofMagnitude negative num den ≠ .nan := by
  unfold ofMagnitude
  split_ifs <;> simp

theorem roundBinary64_ne_nan (q : ℚ) : roundBinary64 q ≠ .nan :=
  ofMagnitude_ne_nan _ _ _

theorem ofMagnitude_false (num den : Nat) :
    ofMagnitude false num den =
      if overflowThreshold * den ≤ num then .posInf
      else .finite (mkRat (roundUnits num den) unitsPerOne) := by
  simp [ofMagnitude]

theorem ofMagnitude_true (num den : Nat) :
    ofMagnitude true num den =
      if overflowThreshold * den ≤ num then .negInf
      else .finite (-(mkRat (roundUnits num den) unitsPerOne)) := by
  simp [ofMagnitude]

theorem mkRat_units (m : Nat) :
    mkRat (m : ℤ) unitsPerOne = ((m : ℤ) : ℚ) / (unitsPerOne : ℚ) := by
  rw [Rat.mkRat_eq_div]

/-- Every finite result of the rounding is a whole number of steps of
`2 ^ (-1074)`. -/
theorem roundBinary64_units (q x : ℚ) (h : roundBinary64 q = .finite x) :
    ∃ k : ℤ, x = (k : ℚ) / (unitsPerOne : ℚ) := by
  unfold roundBinary64 at h
  cases hneg : decide (q < 0) with
  | false =>
    rw [hneg, ofMagnitude_false] at h
    by_cases hov : overflowThreshold * q.den ≤ q.num.natAbs
    · rw [if_pos hov] at h
      cases h
    · rw [if_neg hov] at h
      injection h with h
      exact ⟨(roundUnits q.num.natAbs q.den : ℤ), by rw [← h, mkRat_units]⟩
  | true =>
    rw [hneg, ofMagnitude_true] at h
    by_cases hov : overflowThreshold * q.den ≤ q.num.natAbs
    · rw [if_pos hov] at h
      cases h
    · rw [if_neg hov] at h
      injection h with h
      refine ⟨-(roundUnits q.num.natAbs q.den : ℤ), ?_⟩
      rw [← h, mkRat_units]
      push_cast
      ring

theorem roundBinary64_isPos_of_ge (z : ℚ) (hz : 0 < z) (h1 : 1 ≤ z * (unitsPerOne : ℚ)) :
    (roundBinary64 z).isPos = true := by
  have hneg : decide (z < 0) = false := by simpa using hz.le
  have hden : 0 < z.den := z.den_pos
  have hnum : 0 ≤ z.num := Rat.num_nonneg.mpr hz.le
  have hcast : ((z.num.natAbs : ℕ) : ℚ) = (z.num : ℚ) := by
    have : ((z.num.natAbs : ℕ) : ℤ) = z.num := Int.natAbs_of_nonneg hnum
    rw [← Int.cast_natCast, this]
  have hle : z.den ≤ z.num.natAbs * unitsPerOne := by
    have hq : (z.den : ℚ) ≤ (z.num.natAbs : ℚ) * (unitsPerOne : ℚ) := by
      rw [hcast, ← Rat.mul_den_eq_num z]
      have hd : (0 : ℚ) < (z.den : ℚ) := by exact_mod_cast hden
      nlinarith
    exact_mod_cast hq
  have hpos := roundUnits_pos z.num.natAbs z.den hden hle
  unfold roundBinary64
  rw [hneg, ofMagnitude_false]
  by_cases hov : overflowThreshold * z.den ≤ z.num.natAbs
  · rw [if_pos hov]
    rfl
  · rw [if_neg hov, mkRat_units]
    simp only [JsNum.isPos, decide_eq_true_eq]
    have hu : (0 : ℚ) < (unitsPerOne : ℚ) := by exact_mod_cast unitsPerOne_pos
    have hm : (0 : ℚ) < ((roundUnits z.num.natAbs z.den : ℤ) : ℚ) := by exact_mod_cast hpos
    exact div_pos hm hu

theorem roundBinary64_isPos_of_nonpos (z : ℚ) (hz : z ≤ 0) :
    (roundBinary64 z).isPos = false := by
  have hu : (0 : ℚ) < (unitsPerOne : ℚ) := by exact_mod_cast unitsPerOne_pos
  rcases lt_or_eq_of_le hz with hlt | heq
  · have hneg : decide (z < 0) = true := by simpa using hlt
    unfold roundBinary64
    rw [hneg, ofMagnitude_true]
    by_cases hov : overflowThreshold * z.den ≤ z.num.natAbs
    · rw [if_pos hov]
      rfl
    · rw [if_neg hov, mkRat_units]
      simp only [JsNum.isPos, decide_eq_false_iff_not, not_lt]
      have hm : (0 : ℚ) ≤ ((roundUnits z.num.natAbs z.den : ℤ) : ℚ) := by
        exact_mod_cast Nat.zero_le _
      have : (0 : ℚ) ≤ ((roundUnits z.num.natAbs z.den : ℤ) : ℚ) / (unitsPerOne : ℚ) :=
        div_nonneg hm hu.le
      linarith
  · subst heq
    have h0 : roundUnits 0 1 = 0 := by decide
    have hthr : ¬ overflowThreshold * 1 ≤ 0 := by decide
    unfold roundBinary64
    simp only [lt_self_iff_false, decide_False, Rat.num_zero, Int.natAbs_zero, Rat.den_zero,
      ofMagnitude_false, if_neg hthr, h0]
    simp [JsNum.isPos]

/-- The rounding of binary64 arithmetic tells the order of two of its values
by the sign of their rounded difference. -/
theorem roundBinary64_signFaithful : SignFaithful roundBinary64 := by
  refine ⟨roundBinary64_ne_nan, ?_⟩
  intro a b x y ha hb
  obtain ⟨kx, hx⟩ := roundBinary64_units a x ha
  obtain ⟨ky, hy⟩ := roundBinary64_units b y hb
  have hu : (0 : ℚ) < (unitsPerOne : ℚ) := by exact_mod_cast unitsPerOne_pos
  by_cases hxy : x < y
  · have hk : kx < ky := by
      rw [hx, hy, div_lt_div_iff_of_pos_right hu] at hxy
      exact_mod_cast hxy
    have hk1 : (1 : ℚ) ≤ (ky : ℚ) - (kx : ℚ) := by
      have : (1 : ℤ) ≤ ky - kx := by omega
      exact_mod_cast this
    have h1 : 1 ≤ (y - x) * (unitsPerOne : ℚ) := by
      rw [hx, hy, ← sub_div, div_mul_cancel₀ _ (ne_of_gt hu)]
      exact hk1
    simp [roundBinary64_isPos_of_ge (y - x) (by linarith) h1, hxy]
  · have hz : y - x ≤ 0 := by linarith [not_lt.mp hxy]
    simp [roundBinary64_isPos_of_nonpos (y - x) hz, hxy]

/-! ## The order of the averages -/

theorem pairwise_orderedInsert_of {α : Type} (r : α → α → Prop) [DecidableRel r]
    (P : α → Prop) (htot : ∀ a b, P a → P b → r a b ∨ r b a)
    (htr : ∀ a b c, P a → P b → P c → r a b → r b c → r a c)
    (a : α) (l : List α) (ha : P a) (hl : ∀ x ∈ l, P x) (hs : l.Pairwise r) :
    (l.orderedInsert r a).Pairwise r := by
  induction l with
  | nil => simp
  | cons b l ih =>
    have hb : P b := hl b (List.mem_cons_self _ _)
    have hl' : ∀ x ∈ l, P x := fun x hx => hl x (List.mem_cons_of_mem _ hx)
    obtain ⟨hbl, hs'⟩ := List.pairwise_cons.mp hs
    simp only [List.orderedInsert]
    split_ifs with hab
    · refine List.pairwise_cons.mpr ⟨?_, hs⟩
      intro c hc
      rcases List.mem_cons.mp hc with e | e
      · rw [e]; exact hab
      · exact htr a b c ha hb (hl' c e) hab (hbl c e)
    · refine List.pairwise_cons.mpr ⟨?_, ih hl' hs'⟩
      intro c hc
      rcases (List.mem_orderedInsert r).mp hc with e | e
      · rw [e]
        rcases htot a b ha hb with h | h
        · exact absurd h hab
        · exact h
      · exact hbl c e

/-- Insertion sort orders a list by a relation that is total and transitive on
the members of the list. -/
theorem pairwise_insertionSort_of {α : Type} (r : α → α → Prop) [DecidableRel r]
    (P : α → Prop) (htot : ∀ a b, P a → P b → r a b ∨ r b a)
    (htr : ∀ a b c, P a → P b → P c → r a b → r b c → r a c)
    (l : List α) (hl : ∀ x ∈ l, P x) : (l.insertionSort r).Pairwise r := by
  induction l with
  | nil => simp
  | cons a l ih =>
    have ha : P a := hl a (List.mem_cons_self _ _)
    have hl' : ∀ x ∈ l, P x := fun x hx => hl x (List.mem_cons_of_mem _ hx)
    simp only [List.insertionSort]
    exact pairwise_orderedInsert_of r P htot htr a _ ha
      (fun x hx => hl' x ((List.mem_insertionSort r).mp hx)) (ih hl')

theorem le_total_of_ne_nan (a b : JsNum) (ha : a ≠ .nan) (hb : b ≠ .nan) :
    JsNum.le a b = true ∨ JsNum.le b a = true := by
  cases a <;> cases b <;> simp_all [JsNum.le]
  exact le_total _ _

theorem le_trans_of_ne_nan (a b c : JsNum) (hab : JsNum.le a b = true)
    (hbc : JsNum.le b c = true) : JsNum.le a c = true := by
  cases a <;> cases b <;> cases c <;> simp_all [JsNum.le]
  exact le_trans hab hbc

theorem le_refl_of_ne_nan (a : JsNum) (ha : a ≠ .nan) : JsNum.le a a = true := by
  cases a <;> simp_all [JsNum.le]

/-- On numbers that averages can be, the comparator leaves `a` before `b`
exactly when the average of `b` is at most that of `a`. -/
theorem staysBefore_iff_le (rnd : ℚ → JsNum) (hsf : SignFaithful rnd)
    (a b : JsVal × JsNum) (ha : IsRounded rnd a.2) (hb : IsRounded rnd b.2) :
    staysBefore rnd a b ↔ JsNum.le b.2 a.2 = true := by
  obtain ⟨ka, va⟩ := a
  obtain ⟨kb, vb⟩ := b
  obtain ⟨hna, hra⟩ := ha
  obtain ⟨hnb, hrb⟩ := hb
  simp only at hna hra hnb hrb
  cases va with
  | nan => exact absurd rfl hna
  | finite x =>
    cases vb with
    | nan => exact absurd rfl hnb
    | finite y =>
      obtain ⟨qa, hqa⟩ := hra x rfl
      obtain ⟨qb, hqb⟩ := hrb y rfl
      have h := hsf.2 qa qb x y hqa hqb
      simp only [staysBefore, compareAvg, JsNum.sub, JsNum.neg, JsNum.add, JsNum.le,
        decide_eq_true_eq, ← sub_eq_add_neg]
      rw [← not_lt, ← h]
      simp
    | posInf => simp [staysBefore, compareAvg, JsNum.sub, JsNum.neg, JsNum.add, JsNum.le,
        JsNum.isPos]
    | negInf => simp [staysBefore, compareAvg, JsNum.sub, JsNum.neg, JsNum.add, JsNum.le,
        JsNum.isPos]
  | posInf =>
    cases vb with
    | nan => exact absurd rfl hnb
    | finite y => simp [staysBefore, compareAvg, JsNum.sub, JsNum.neg, JsNum.add, JsNum.le,
        JsNum.isPos]
    | posInf => simp [staysBefore, compareAvg, JsNum.sub, JsNum.neg, JsNum.add, JsNum.le,
        JsNum.isPos]
    | negInf => simp [staysBefore, compareAvg, JsNum.sub, JsNum.neg, JsNum.add, JsNum.le,
        JsNum.isPos]
  | negInf =>
    cases vb with
    | nan => exact absurd rfl hnb
    | finite y => simp [staysBefore, compareAvg, JsNum.sub, JsNum.neg, JsNum.add, JsNum.le,
        JsNum.isPos]
    | posInf => simp [staysBefore, compareAvg, JsNum.sub, JsNum.neg, JsNum.add, JsNum.le,
        JsNum.isPos]
    | negInf => simp [staysBefore, compareAvg, JsNum.sub, JsNum.neg, JsNum.add, JsNum.le,
        JsNum.isPos]

theorem add_ne_nan (rnd : ℚ → JsNum) (hsf : SignFaithful rnd) (acc v : JsNum)
    (hacc : acc ≠ .nan) (hv : v.isFinite = true) : acc.add rnd v ≠ .nan := by
  cases v with
  | finite x =>
    cases acc with
    | finite a => exact hsf.1 _
    | nan => exact absurd rfl hacc
    | posInf => simp [JsNum.add]
    | negInf => simp [JsNum.add]
  | nan => cases hv
  | posInf => cases hv
  | negInf => cases hv

theorem foldl_add_ne_nan (rnd : ℚ → JsNum) (hsf : SignFaithful rnd) (l : List Row)
    (hfin : ∀ r ∈ l, r.value.isFinite = true) (acc : JsNum) (hacc : acc ≠ .nan) :
    l.foldl (fun (sum : JsNum) r => sum.add rnd r.value) acc ≠ .nan := by
  induction l generalizing acc with
  | nil => exact hacc
  | cons r l ih =>
    rw [List.foldl_cons]
    exact ih (fun x hx => hfin x (List.mem_cons_of_mem _ hx)) _
      (add_ne_nan rnd hsf acc r.value hacc (hfin r (List.mem_cons_self _ _)))

/-- With finite values, the quotient of a key that occurs is not `NaN`, and
when finite it is a result of the rounding. -/
theorem isRounded_groupQuotient (rnd : ℚ → JsNum) (hsf : SignFaithful rnd) (rows : List Row)
    (key : Str) (hfin : ∀ r ∈ rows, r.value.isFinite = true) (k : JsVal)
    (hk : k ∈ rows.map (fun r => r.get key)) :
    IsRounded rnd (groupQuotient rnd rows key k) := by
  have hpos := groupCount_pos rows key k hk
  have hne : groupCount rows key k ≠ 0 := by omega
  have hsum : groupRunningSum rnd rows key k ≠ .nan := by
    unfold groupRunningSum
    apply foldl_add_ne_nan rnd hsf
    · intro r hr
      exact hfin r (List.mem_of_mem_filter hr)
    · simp
  unfold groupQuotient
  cases hs : groupRunningSum rnd rows key k with
  | nan => exact absurd hs hsum
  | finite x =>
    simp only [JsNum.divNat, hne, if_false]
    exact ⟨hsf.1 _, fun y hy => ⟨_, hy⟩⟩
  | posInf => exact ⟨by simp [JsNum.divNat], fun y hy => by simp [JsNum.divNat] at hy⟩
  | negInf => exact ⟨by simp [JsNum.divNat], fun y hy => by simp [JsNum.divNat] at hy⟩

/-- Under a rounding that tells the order of its values, `groupAverage` on
records with finite values is in descending order of average, and entries with
equal averages keep the order in which their keys are first met. -/
theorem groupAverageWith_sorted_stable (rnd : ℚ → JsNum) (hsf : SignFaithful rnd)
    (rows : List Row) (key : Str) (hfin : ∀ r ∈ rows, r.value.isFinite = true) :
    (groupAverageWith rnd rows key).Pairwise (fun a b => JsNum.le b.2 a.2 = true) ∧
    ∀ k1 k2 a, (k1, a) ∈ groupAverageWith rnd rows key →
      (k2, a) ∈ groupAverageWith rnd rows key →
      (rows.map (fun r => r.get key)).indexOf k1 <
        (rows.map (fun r => r.get key)).indexOf k2 →
      List.Sublist [(k1, a), (k2, a)] (groupAverageWith rnd rows key) := by
  have hround : ∀ e ∈ quotientsInOrder rnd rows key, IsRounded rnd e.2 := by
    intro e he
    obtain ⟨h1, h2⟩ := (mem_quotientsInOrder rnd rows key e).mp he
    rw [h2]
    exact isRounded_groupQuotient rnd hsf rows key hfin e.1 h1
  refine ⟨?_, ?_⟩
  · rw [groupAverageWith_eq]
    have hs := pairwise_insertionSort_of (staysBefore rnd) (fun e => IsRounded rnd e.2)
      (fun a b ha hb => by
        rcases le_total_of_ne_nan b.2 a.2 hb.1 ha.1 with h | h
        · exact Or.inl ((staysBefore_iff_le rnd hsf a b ha hb).mpr h)
        · exact Or.inr ((staysBefore_iff_le rnd hsf b a hb ha).mpr h))
      (fun a b c ha hb hc hab hbc =>
        (staysBefore_iff_le rnd hsf a c ha hc).mpr
          (le_trans_of_ne_nan c.2 b.2 a.2 ((staysBefore_iff_le rnd hsf b c hb hc).mp hbc)
            ((staysBefore_iff_le rnd hsf a b ha hb).mp hab)))
      (quotientsInOrder rnd rows key) hround
    refine hs.imp_of_mem ?_
    intro a b ha hb hab
    have ha' := hround a ((List.perm_insertionSort _ _).mem_iff.mp ha)
    have hb' := hround b ((List.perm_insertionSort _ _).mem_iff.mp hb)
    exact (staysBefore_iff_le rnd hsf a b ha' hb').mp hab
  · intro k1 k2 a h1 h2 hlt
    obtain ⟨_, ha1⟩ := (mem_groupAverageWith rnd rows key (k1, a)).mp h1
    obtain ⟨hk2, ha2⟩ := (mem_groupAverageWith rnd rows key (k2, a)).mp h2
    simp only at ha1 ha2 hk2
    have hkeys := pair_sublist_firstKeys _ k1 k2 hlt hk2
    have hm : List.Sublist [(k1, a), (k2, a)] (quotientsInOrder rnd rows key) := by
      have := hkeys.map (fun k => (k, groupQuotient rnd rows key k))
      simpa [quotientsInOrder, ← ha1, ← ha2] using this
    have hra : IsRounded rnd a := by
      rw [ha2]
      exact isRounded_groupQuotient rnd hsf rows key hfin k2 hk2
    have hge : staysBefore rnd (k1, a) (k2, a) :=
      (staysBefore_iff_le rnd hsf (k1, a) (k2, a) hra hra).mpr (le_refl_of_ne_nan a hra.1)
    rw [groupAverageWith_eq]
    exact List.pair_sublist_insertionSort hge hm

/-! ## Exact arithmetic -/

theorem foldl_add_exact (rows : List Row) (hfin : ∀ r ∈ rows, r.value.isFinite = true)
    (s0 : ℚ) :
    rows.foldl (fun (sum : JsNum) row => sum.add exactArithmetic row.value) (JsNum.finite s0) =
      .finite (s0 + (rows.map Row.valueQ).sum) := by
  induction rows generalizing s0 with
  | nil => simp
  | cons r rs ih =>
    have hr := hfin r (List.mem_cons_self _ _)
    have hrs : ∀ x ∈ rs, x.value.isFinite = true :=
      fun x hx => hfin x (List.mem_cons_of_mem _ hx)
    cases hv : r.value with
    | finite v =>
      have hstep : (JsNum.finite s0).add exactArithmetic r.value = JsNum.finite (s0 + v) := by
        rw [hv]; rfl
      have hq : r.valueQ = v := by
        simp [Row.valueQ, hv]
      rw [List.foldl_cons, hstep, ih hrs, List.map_cons, List.sum_cons, hq, add_assoc]
    | nan => rw [hv] at hr; cases hr
    | posInf => rw [hv] at hr; cases hr
    | negInf => rw [hv] at hr; cases hr

theorem groupRunningSum_exact (rows : List Row) (key : Str) (k : JsVal)
    (hfin : ∀ r ∈ rows, r.value.isFinite = true) :
    groupRunningSum exactArithmetic rows key k = .finite (groupSum rows key k) := by
  have h := foldl_add_exact (groupRows rows key k)
    (fun r hr => hfin r (List.mem_of_mem_filter hr)) 0
  rw [zero_add] at h
  exact h

/-- In exact arithmetic, with finite values, the quotient of a key that occurs
is the arithmetic mean of its records. -/
theorem groupQuotient_exact (rows : List Row) (key : Str) (k : JsVal)
    (hfin : ∀ r ∈ rows, r.value.isFinite = true)
    (hk : k ∈ rows.map (fun r => r.get key)) :
    groupQuotient exactArithmetic rows key k = .finite (groupMean rows key k) := by
  have hpos := groupCount_pos rows key k hk
  have hne : groupCount rows key k ≠ 0 := by omega
  unfold groupQuotient
  rw [groupRunningSum_exact rows key k hfin]
  simp [JsNum.divNat, hne, groupMean, exactArithmetic]

theorem staysBefore_embPair (a b : JsVal × ℚ) :
    staysBefore exactArithmetic (embPair a) (embPair b) ↔ avgGe a b := by
  simp only [staysBefore, compareAvg, embPair, JsNum.sub, JsNum.neg, JsNum.add, JsNum.isPos,
    exactArithmetic, avgGe, decide_eq_false_iff_not, not_lt]
  constructor <;> intro h <;> linarith

/-- The result of `groupAverage` in exact arithmetic on records with finite
values: the group means, taken in the order in which the keys are first met
and then sorted by insertion into descending order. -/
theorem groupAverage_exact_eq (rows : List Row) (key : Str)
    (hfin : ∀ r ∈ rows, r.value.isFinite = true) :
    groupAverageWith exactArithmetic rows key =
      ((meansInOrder rows key).insertionSort avgGe).map embPair := by
  have hmap : quotientsInOrder exactArithmetic rows key =
      (meansInOrder rows key).map embPair := by
    unfold quotientsInOrder meansInOrder
    rw [List.map_map]
    apply List.map_congr_left
    intro k hk
    simp [embPair, groupQuotient_exact rows key k hfin ((mem_firstKeys _ _).mp hk)]
  rw [groupAverageWith_eq, hmap]
  exact (List.map_insertionSort (r := avgGe) (s := staysBefore exactArithmetic) embPair
    (meansInOrder rows key) (fun a _ b _ => (staysBefore_embPair a b).symm)).symm

theorem keys_meansInOrder (rows : List Row) (key : Str) :
    (meansInOrder rows key).map Prod.fst = firstKeys (rows.map (fun r => r.get key)) := by
  unfold meansInOrder
  rw [List.map_map]
  simp [Function.comp_def]

theorem mem_meansInOrder (rows : List Row) (key : Str) (e : JsVal × ℚ) :
    e ∈ meansInOrder rows key ↔
      e.1 ∈ rows.map (fun r => r.get key) ∧ e.2 = groupMean rows key e.1 := by
  unfold meansInOrder
  constructor
  · intro h
    obtain ⟨k, hk, rfl⟩ := List.mem_map.mp h
    exact ⟨(mem_firstKeys _ _).mp hk, rfl⟩
  · rintro ⟨h1, h2⟩
    exact List.mem_map.mpr ⟨e.1, (mem_firstKeys _ _).mpr h1, by rw [← h2]⟩

theorem sum_map_ite_of_not_mem {M : Type} [AddCommMonoid M] (K : List JsVal) (k0 : JsVal)
    (hk : k0 ∉ K) (x : M) : (K.map (fun k => if k0 = k then x else 0)).sum = 0 := by
  induction K with
  | nil => simp
  | cons a K ih =>
    have h1 : ¬ k0 = a := fun e => hk (e ▸ List.mem_cons_self _ _)
    have h2 : k0 ∉ K := fun e => hk (List.mem_cons_of_mem _ e)
    simp [h1, ih h2]

theorem sum_map_ite_of_nodup {M : Type} [AddCommMonoid M] (K : List JsVal) (hK : K.Nodup)
    (k0 : JsVal) (hk : k0 ∈ K) (x : M) :
    (K.map (fun k => if k0 = k then x else 0)).sum = x := by
  induction K with
  | nil => simp at hk
  | cons a K ih =>
    obtain ⟨ha, hK'⟩ := List.nodup_cons.mp hK
    by_cases h : k0 = a
    · subst h
      simp [sum_map_ite_of_not_mem K k0 ha x]
    · have hk' : k0 ∈ K := by
        rcases List.mem_cons.mp hk with e | e
        · exact absurd e h
        · exact e
      simp [h, ih hK' hk']

/-- Summing group by group, over keys without repetition that cover the
records, is summing over all the records. -/
theorem sum_groups {M : Type} [AddCommMonoid M] (v : Row → M) (rows : List Row) (key : Str)
    (K : List JsVal) (hK : K.Nodup) (hall : ∀ r ∈ rows, r.get key ∈ K) :
    (K.map (fun k => ((groupRows rows key k).map v).sum)).sum = (rows.map v).sum := by
  induction rows with
  | nil => simp [groupRows]
  | cons r rs ih =>
    have hstep : ∀ k, ((groupRows (r :: rs) key k).map v).sum =
        (if r.get key = k then v r else 0) + ((groupRows rs key k).map v).sum := by
      intro k
      by_cases h : r.get key = k <;> simp [groupRows, List.filter_cons, h]
    simp only [hstep]
    rw [List.sum_map_add, sum_map_ite_of_nodup K hK _ (hall r (List.mem_cons_self _ _)),
      ih (fun x hx => hall x (List.mem_cons_of_mem _ hx))]
    simp

/-- The overall average, in exact arithmetic, of a non-empty list of records
with finite values. -/
theorem renderDashboardAvg_exact (rows : List Row) (hne : rows ≠ [])
    (hfin : ∀ r ∈ rows, r.value.isFinite = true) :
    renderDashboardAvgWith exactArithmetic rows =
      .finite ((rows.map Row.valueQ).sum / (rows.length : ℚ)) := by
  unfold renderDashboardAvgWith
  rw [foldl_add_exact rows hfin 0]
  have hlen : rows.length ≠ 0 := by
    intro h0
    exact hne (List.length_eq_zero.mp h0)
  simp [JsNum.divNat, hlen, exactArithmetic]

theorem sum_groupCount (rows : List Row) (key : Str) :
    ((firstKeys (rows.map (fun r => r.get key))).map (fun k => groupCount rows key k)).sum =
      rows.length := by
  have h := sum_groups (fun _ => (1 : Nat)) rows key _ (nodup_firstKeys _)
    (fun r hr => (mem_firstKeys _ _).mpr (List.mem_map.mpr ⟨r, hr, rfl⟩))
  simpa [groupCount] using h

theorem sum_groupSum (rows : List Row) (key : Str) :
    ((firstKeys (rows.map (fun r => r.get key))).map (fun k => groupSum rows key k)).sum =
      (rows.map Row.valueQ).sum :=
  sum_groups Row.valueQ rows key _ (nodup_firstKeys _)
    (fun r hr => (mem_firstKeys _ _).mpr (List.mem_map.mpr ⟨r, hr, rfl⟩))

theorem sum_sorted_means (rows : List Row) (key : Str) (f : JsVal × ℚ → ℚ) :
    (((meansInOrder rows key).insertionSort avgGe).map f).sum =
      ((firstKeys (rows.map (fun r => r.get key))).map
        (fun k => f (k, groupMean rows key k))).sum := by
  rw [((List.perm_insertionSort avgGe (meansInOrder rows key)).map f).sum_eq]
  unfold meansInOrder
  rw [List.map_map]
  rfl

theorem count_mul_groupMean (rows : List Row) (key : Str) (k : JsVal)
    (hk : k ∈ rows.map (fun r => r.get key)) :
    (groupCount rows key k : ℚ) * groupMean rows key k = groupSum rows key k := by
  have hpos := groupCount_pos rows key k hk
  have hne : (groupCount rows key k : ℚ) ≠ 0 := by
    exact_mod_cast (by omega : groupCount rows key k ≠ 0)
  unfold groupMean
  field_simp

/-- The sums over a list of pairs sorted by descending average: the first
average bounds the weighted sum from above and the last from below. -/
theorem weighted_sum_bounds (S : List (JsVal × ℚ)) (hS : S.Pairwise avgGe) (c : JsVal → ℚ)
    (hc : ∀ k, 0 ≤ c k) :
    (∀ h ∈ S.head?, (S.map (fun e => c e.1 * e.2)).sum ≤ (S.map (fun e => c e.1)).sum * h.2) ∧
    (∀ l ∈ S.getLast?, (S.map (fun e => c e.1)).sum * l.2 ≤ (S.map (fun e => c e.1 * e.2)).sum) := by
  constructor
  · intro h hh
    obtain ⟨t, ht⟩ := List.head?_eq_some_iff.mp hh
    have hall : ∀ e ∈ S, e.2 ≤ h.2 := by
      intro e he
      rw [ht] at he hS
      rcases List.mem_cons.mp he with e1 | e1
      · rw [e1]
      · exact (List.pairwise_cons.mp hS).1 e e1
    rw [← List.sum_map_mul_right]
    exact List.sum_le_sum (fun e he => mul_le_mul_of_nonneg_left (hall e he) (hc e.1))
  · intro l hl
    obtain ⟨i, hi⟩ := List.getLast?_eq_some_iff.mp hl
    have hall : ∀ e ∈ S, l.2 ≤ e.2 := by
      intro e he
      rw [hi] at he hS
      rcases List.mem_append.mp he with e1 | e1
      · exact (List.pairwise_append.mp hS).2.2 e e1 l (List.mem_singleton.mpr rfl)
      · rw [List.mem_singleton.mp e1]
    rw [← List.sum_map_mul_right]
    exact List.sum_le_sum (fun e he => mul_le_mul_of_nonneg_left (hall e he) (hc e.1))

/-- Claim C10. For a non-empty list of records with finite values, in exact
arithmetic (the program run with `exactArithmetic`, that is without rounding),
the overall average of `renderDashboard` is the sum of the values
over the number of records; the counts of the groups of `groupAverage` add up
to the number of records, so the overall average is the mean of the group
averages weighted by these counts; and it lies between the average of the
last entry and the average of the first entry of `groupAverage`. -/
theorem overall_average_weighted_mean (rows : List Row) (key : Str) (hne : rows ≠ [])
    (hfin : ∀ r ∈ rows, r.value.isFinite = true) :
    ∃ q : ℚ, renderDashboardAvgWith exactArithmetic rows = .finite q ∧
      q = (rows.map Row.valueQ).sum / (rows.length : ℚ) ∧
      ((groupAverageWith exactArithmetic rows key).map (fun e => groupCount rows key e.1)).sum = rows.length ∧
      q = ((groupAverageWith exactArithmetic rows key).map
            (fun e => (groupCount rows key e.1 : ℚ) * e.2.toRat)).sum /
          (((groupAverageWith exactArithmetic rows key).map (fun e => groupCount rows key e.1)).sum : ℚ) ∧
      (∀ e ∈ (groupAverageWith exactArithmetic rows key).head?, JsNum.le (.finite q) e.2 = true) ∧
      (∀ e ∈ (groupAverageWith exactArithmetic rows key).getLast?, JsNum.le e.2 (.finite q) = true) := by
  have hlen : (0 : ℚ) < (rows.length : ℚ) := by
    have : 0 < rows.length := List.length_pos.mpr hne
    exact_mod_cast this
  have hcount : ((groupAverageWith exactArithmetic rows key).map (fun e => groupCount rows key e.1)).sum =
      rows.length := by
    rw [groupAverage_exact_eq rows key hfin, List.map_map,
      ((List.perm_insertionSort avgGe (meansInOrder rows key)).map _).sum_eq]
    unfold meansInOrder
    rw [List.map_map]
    exact sum_groupCount rows key
  have hcountQ : (((meansInOrder rows key).insertionSort avgGe).map
      (fun e => (groupCount rows key e.1 : ℚ))).sum = (rows.length : ℚ) := by
    rw [sum_sorted_means rows key (fun e => (groupCount rows key e.1 : ℚ))]
    have h := sum_groupCount rows key
    have h2 := congrArg (fun n : Nat => (n : ℚ)) h
    simp only [Nat.cast_list_sum, List.map_map] at h2
    exact h2
  have hweighted : (((meansInOrder rows key).insertionSort avgGe).map
      (fun e => (groupCount rows key e.1 : ℚ) * e.2)).sum = (rows.map Row.valueQ).sum := by
    rw [sum_sorted_means rows key (fun e => (groupCount rows key e.1 : ℚ) * e.2),
      ← sum_groupSum rows key]
    congr 1
    apply List.map_congr_left
    intro k hk
    exact count_mul_groupMean rows key k ((mem_firstKeys _ _).mp hk)
  have hG : (groupAverageWith exactArithmetic rows key).map
      (fun e => (groupCount rows key e.1 : ℚ) * e.2.toRat) =
      ((meansInOrder rows key).insertionSort avgGe).map
        (fun e => (groupCount rows key e.1 : ℚ) * e.2) := by
    rw [groupAverage_exact_eq rows key hfin, List.map_map]
    rfl
  have hsorted : List.Pairwise avgGe ((meansInOrder rows key).insertionSort avgGe) :=
    List.sorted_insertionSort avgGe _
  obtain ⟨hhead, hlast⟩ := weighted_sum_bounds _ hsorted
    (fun k => (groupCount rows key k : ℚ)) (fun k => Nat.cast_nonneg _)
  rw [hweighted, hcountQ] at hhead hlast
  refine ⟨_, renderDashboardAvg_exact rows hne hfin, rfl, hcount, ?_, ?_, ?_⟩
  · rw [hG, hweighted, hcount]
  · intro e he
    rw [groupAverage_exact_eq rows key hfin, List.head?_map] at he
    obtain ⟨h, hh, rfl⟩ := Option.mem_map.mp he
    have := hhead h hh
    simp only [embPair, JsNum.le, decide_eq_true_eq]
    rw [div_le_iff₀ hlen]
    linarith
  · intro e he
    rw [groupAverage_exact_eq rows key hfin, List.getLast?_map] at he
    obtain ⟨l, hl, rfl⟩ := Option.mem_map.mp he
    have := hlast l hl
    simp only [embPair, JsNum.le, decide_eq_true_eq]
    rw [le_div_iff₀ hlen]
    linarith

/-! ## Evaluations in binary64 arithmetic -/

theorem roundBinary64_natCast (n : ℕ) : roundBinary64 (n : ℚ) = ofMagnitude false n 1 := by
  have h : ¬ ((n : ℚ) < 0) := not_lt.mpr (Nat.cast_nonneg n)
  simp [roundBinary64, h]

theorem roundBinary64_twoPow1023 : roundBinary64 twoPow1023 = .finite twoPow1023 := by
  unfold twoPow1023
  rw [roundBinary64_natCast]
  decide

theorem roundBinary64_twoPow1024 : roundBinary64 (twoPow1023 + twoPow1023) = .posInf := by
  have h : twoPow1023 + twoPow1023 = (((2 ^ 256) ^ 4 : ℕ) : ℚ) := by
    unfold twoPow1023
    norm_num
  rw [h, roundBinary64_natCast]
  decide

unseal Rat.add Rat.mul Rat.inv in
/-- The scenario of the specification, grouped by state. -/
theorem groupAverage_sampleRows :
    groupAverage sampleRows "state".toList =
      [(.str "A".toList, .finite 15), (.str "B".toList, .finite 5)] := by
  decide

unseal Rat.add Rat.mul Rat.inv in
/-- The scenario of the specification, grouped by year. -/
theorem groupAverage_sampleRows_year :
    groupAverage sampleRows "year".toList =
      [(.num (.finite 2021), .finite 20), (.num (.finite 2020), .finite (15 / 2))] := by
  decide

unseal Rat.add Rat.mul Rat.inv in
/-- The records with a tie, grouped by state: the tied keys keep the order in
which they are met. -/
theorem groupAverage_tieRows :
    groupAverage tieRows "state".toList =
      [(.str "C".toList, .finite 20), (.str "B".toList, .finite 10),
        (.str "A".toList, .finite 10)] := by
  decide

unseal Rat.add Rat.mul Rat.inv in
/-- Two values `2 ^ 1023` of one state: the sum overflows and the average is
`Infinity`. -/
theorem groupAverage_overflowRows :
    groupAverage overflowRows "state".toList = [(.str "A".toList, .posInf)] := by
  decide

unseal Rat.add Rat.mul Rat.inv in
/-- The values `2 ^ 53` and `1` of one state: the sum rounds to `2 ^ 53` and
the average is `2 ^ 52`. -/
theorem groupAverage_roundedRows :
    groupAverage roundedRows "state".toList =
      [(.str "A".toList, .finite 4503599627370496)] := by
  decide

unseal Rat.add Rat.mul Rat.inv in
/-- Two states of average `Infinity`, whose comparator is `NaN`, keep the order
in which they are met and stand before the finite average. -/
theorem groupAverage_infiniteTieRows :
    groupAverage infiniteTieRows "state".toList =
      [(.str "A".toList, .posInf), (.str "B".toList, .posInf),
        (.str "C".toList, .finite 1)] := by
  decide

unseal Rat.add Rat.mul Rat.inv in
/-- The overall average of the scenario of the specification in exact
arithmetic. -/
theorem renderDashboardAvg_sampleRows :
    renderDashboardAvgWith exactArithmetic sampleRows = .finite (35 / 3) := by
  decide

/-! ## The claims on `groupAverage` and the overall average -/

/-- Claim C3 as amended. On records with finite values, `groupAverage` gives
each key occurring in the records exactly once and no other key, and pairs each
key with the binary64 quotient, by the count of the records carrying that key,
of the binary64 sum of their values added in row order from `0`.  In exact
arithmetic that quotient is their arithmetic mean: their sum divided by their
count.  This holds for every `key`, `state` and `year` among them. -/
theorem groupAverage_group_quotients (rows : List Row) (key : Str)
    (hfin : ∀ r ∈ rows, r.value.isFinite = true) :
    ((groupAverage rows key).map Prod.fst).Nodup ∧
    (∀ k, k ∈ (groupAverage rows key).map Prod.fst ↔ ∃ r ∈ rows, r.get key = k) ∧
    (∀ k a, (k, a) ∈ groupAverage rows key →
      a = ((groupRows rows key k).foldl
            (fun (sum : JsNum) r => sum.add roundBinary64 r.value) (JsNum.finite 0)).divNat
          roundBinary64 (groupRows rows key k).length ∧
      0 < (groupRows rows key k).length) ∧
    (∀ k a, (k, a) ∈ groupAverageWith exactArithmetic rows key →
      a = .finite (((groupRows rows key k).map Row.valueQ).sum /
        ((groupRows rows key k).length : ℚ))) := by
  have hkeys := keys_groupAverageWith roundBinary64 rows key
  refine ⟨hkeys.nodup_iff.mpr (nodup_firstKeys _), ?_, ?_, ?_⟩
  · intro k
    unfold groupAverage
    rw [hkeys.mem_iff, mem_firstKeys, List.mem_map]
  · intro k a hka
    obtain ⟨h1, h2⟩ := (mem_groupAverageWith roundBinary64 rows key (k, a)).mp hka
    exact ⟨h2, groupCount_pos rows key k h1⟩
  · intro k a hka
    obtain ⟨h1, h2⟩ := (mem_groupAverageWith exactArithmetic rows key (k, a)).mp hka
    simp only at h1 h2
    rw [h2, groupQuotient_exact rows key k hfin h1]
    rfl

/-- Witness of the amended C3: the three records of the scenario grouped by
state give `[(A, 15), (B, 5)]`, and grouped by year `[(2021, 20), (2020, 7.5)]`. -/
theorem groupAverage_group_quotients_witness :
    (∀ r ∈ sampleRows, r.value.isFinite = true) ∧
    groupAverage sampleRows "state".toList =
      [(.str "A".toList, .finite 15), (.str "B".toList, .finite 5)] ∧
    groupAverage sampleRows "year".toList =
      [(.num (.finite 2021), .finite 20), (.num (.finite 2020), .finite (15 / 2))] ∧
    (((groupAverage sampleRows "state".toList).map Prod.fst).Nodup ∧
      (∀ k, k ∈ (groupAverage sampleRows "state".toList).map Prod.fst ↔
        ∃ r ∈ sampleRows, r.get "state".toList = k) ∧
      (∀ k a, (k, a) ∈ groupAverage sampleRows "state".toList →
        a = ((groupRows sampleRows "state".toList k).foldl
              (fun (sum : JsNum) r => sum.add roundBinary64 r.value) (JsNum.finite 0)).divNat
            roundBinary64 (groupRows sampleRows "state".toList k).length ∧
        0 < (groupRows sampleRows "state".toList k).length) ∧
      (∀ k a, (k, a) ∈ groupAverageWith exactArithmetic sampleRows "state".toList →
        a = .finite (((groupRows sampleRows "state".toList k).map Row.valueQ).sum /
          ((groupRows sampleRows "state".toList k).length : ℚ)))) :=
  ⟨by decide, groupAverage_sampleRows, groupAverage_sampleRows_year,
    groupAverage_group_quotients sampleRows "state".toList (by decide)⟩

/-- Counterexample to C3 as stated: the two records of state `A` with the
finite binary64 value `2 ^ 1023` have the arithmetic mean `2 ^ 1023`, but their
binary64 sum overflows and `groupAverage` pairs `A` with `Infinity`. -/
theorem groupAverage_not_arithmetic_mean :
    ¬ (∀ (rows : List Row) (key : Str),
        (key = "state".toList ∨ key = "year".toList) →
        (∀ r ∈ rows, r.value.isFinite = true ∧ roundBinary64 r.valueQ = r.value) →
        ∀ k a, (k, a) ∈ groupAverage rows key →
          a = .finite (((groupRows rows key k).map Row.valueQ).sum /
            ((groupRows rows key k).length : ℚ))) := by
  intro hall
  have hrows : ∀ r ∈ overflowRows,
      r.value.isFinite = true ∧ roundBinary64 r.valueQ = r.value := by
    intro r hr
    simp only [overflowRows, List.mem_cons, List.mem_singleton, List.not_mem_nil,
      or_false] at hr
    rcases hr with e | e <;> subst e <;>
      exact ⟨rfl, by simp [Row.valueQ, roundBinary64_twoPow1023]⟩
  have hmem : ((JsVal.str "A".toList, JsNum.posInf) : JsVal × JsNum) ∈
      groupAverage overflowRows "state".toList := by
    rw [groupAverage_overflowRows]
    exact List.mem_singleton.mpr rfl
  have h := hall overflowRows "state".toList (Or.inl rfl) hrows _ _ hmem
  cases h

/-- Claim C4. On records with finite values, the sequence returned by
`groupAverage` is in descending order of average, and two entries with equal
averages stand in the order in which their keys are first met in the records. -/
theorem groupAverage_sorted_stable (rows : List Row) (key : Str)
    (hfin : ∀ r ∈ rows, r.value.isFinite = true) :
    (groupAverage rows key).Pairwise (fun a b => JsNum.le b.2 a.2 = true) ∧
    ∀ k1 k2 a, (k1, a) ∈ groupAverage rows key → (k2, a) ∈ groupAverage rows key →
      (rows.map (fun r => r.get key)).indexOf k1 <
        (rows.map (fun r => r.get key)).indexOf k2 →
      List.Sublist [(k1, a), (k2, a)] (groupAverage rows key) :=
  groupAverageWith_sorted_stable roundBinary64 roundBinary64_signFaithful rows key hfin

/-- Witness of C4 on three records with a tie, on records with two infinite
averages, and on the scenario grouped by year. -/
theorem groupAverage_sorted_stable_witness :
    (∀ r ∈ tieRows, r.value.isFinite = true) ∧
    groupAverage tieRows "state".toList =
      [(.str "C".toList, .finite 20), (.str "B".toList, .finite 10),
        (.str "A".toList, .finite 10)] ∧
    groupAverage infiniteTieRows "state".toList =
      [(.str "A".toList, .posInf), (.str "B".toList, .posInf),
        (.str "C".toList, .finite 1)] ∧
    groupAverage sampleRows "year".toList =
      [(.num (.finite 2021), .finite 20), (.num (.finite 2020), .finite (15 / 2))] ∧
    ((groupAverage tieRows "state".toList).Pairwise (fun a b => JsNum.le b.2 a.2 = true) ∧
      ∀ k1 k2 a, (k1, a) ∈ groupAverage tieRows "state".toList →
        (k2, a) ∈ groupAverage tieRows "state".toList →
        (tieRows.map (fun r => r.get "state".toList)).indexOf k1 <
          (tieRows.map (fun r => r.get "state".toList)).indexOf k2 →
        List.Sublist [(k1, a), (k2, a)] (groupAverage tieRows "state".toList)) :=
  ⟨by decide, groupAverage_tieRows, groupAverage_infiniteTieRows,
    groupAverage_sampleRows_year,
    groupAverage_sorted_stable tieRows "state".toList (by decide)⟩

/-- Witness of C10 on the three records of the scenario, grouped by state. -/
theorem overall_average_weighted_mean_witness :
    sampleRows ≠ [] ∧
    (∀ r ∈ sampleRows, r.value.isFinite = true) ∧
    renderDashboardAvgWith exactArithmetic sampleRows = .finite (35 / 3) ∧
    (∃ q : ℚ, renderDashboardAvgWith exactArithmetic sampleRows = .finite q ∧
      q = (sampleRows.map Row.valueQ).sum / (sampleRows.length : ℚ) ∧
      ((groupAverageWith exactArithmetic sampleRows "state".toList).map
        (fun e => groupCount sampleRows "state".toList e.1)).sum = sampleRows.length ∧
      q = ((groupAverageWith exactArithmetic sampleRows "state".toList).map
            (fun e => (groupCount sampleRows "state".toList e.1 : ℚ) * e.2.toRat)).sum /
          (((groupAverageWith exactArithmetic sampleRows "state".toList).map
            (fun e => groupCount sampleRows "state".toList e.1)).sum : ℚ) ∧
      (∀ e ∈ (groupAverageWith exactArithmetic sampleRows "state".toList).head?,
        JsNum.le (.finite q) e.2 = true) ∧
      (∀ e ∈ (groupAverageWith exactArithmetic sampleRows "state".toList).getLast?,
        JsNum.le e.2 (.finite q) = true)) :=
  ⟨by decide, by decide, renderDashboardAvg_sampleRows,
    overall_average_weighted_mean sampleRows "state".toList (by decide) (by decide)⟩

/-- Claim C5, evaluated on the code: a header alone, or data lines that are
all filtered out, give the empty record sequence, and on the empty sequence
the overall average of `renderDashboard` is `0 / 0`, the number `NaN`, which
is not a distinct value for the absence of data. -/
theorem renderDashboardAvg_empty :
    parseCsv csvHeaderOnly = .ok [] ∧
    parseCsv csvBlankState = .ok [] ∧
    renderDashboardAvg [] = .nan ∧
    (renderDashboardAvg []).isFinite = false ∧
    groupAverage [] "state".toList = [] :=
  ⟨by rfl, by rfl, by rfl, by rfl, by rfl⟩

end CodeX
